import Mathlib

/-!
Verification of the IntentGraph repository dependency/symbol graph core.

This file shallowly embeds the repository's core components and proves the
claims of the specification against them:

* `IntentGraph.SHA256` — an executable model of the SHA-256 digest used by
  the symbol identifier scheme (`hashlib.sha256` in the source) and by the
  cache staleness check.
* `IntentGraph.TS` and `IntentGraph.JS` — the deterministic symbol-identifier
  construction and the `extract_dependencies` list handling of
  `typescript_parser.py` and `javascript_parser.py`.
* `IntentGraph.QueryEngine` — the in-memory indices and query methods of
  `query_engine.py` (`callers`, `dependents`, `deps`, `context`, `search`,
  `path`, `symbols`), including the breadth-first shortest-path query.
* `IntentGraph.Cache` — the cache manager of `cache.py` (`load`, `save`,
  `status`, staleness detection).

Machine integers are modelled as `Nat` with explicit reduction modulo `2^32`
where the source relies on 32-bit arithmetic; Python dictionaries are modelled
by their insertion semantics (iterate and overwrite); fallible operations
return `Except`/`Option`.
-/

set_option maxRecDepth 10000

namespace IntentGraph

/-! ## SHA-256

Executable model of the SHA-256 digest (FIPS 180-4), as used by the source
via `hashlib.sha256`.  Words are `Nat` reduced modulo `2^32`.
-/

namespace SHA256

/-- Reduce to a 32-bit word. -/
def w32 (n : Nat) : Nat := n % 4294967296

/-- Right rotation of a 32-bit word by `k` bits. -/
def rotr (k n : Nat) : Nat := w32 ((n >>> k) ||| (n <<< (32 - k)))

/-- Logical right shift. -/
def shr (k n : Nat) : Nat := n >>> k

/-- Big sigma-0 function of the compression loop. -/
def bigSigma0 (x : Nat) : Nat := (rotr 2 x) ^^^ (rotr 13 x) ^^^ (rotr 22 x)

/-- Big sigma-1 function of the compression loop. -/
def bigSigma1 (x : Nat) : Nat := (rotr 6 x) ^^^ (rotr 11 x) ^^^ (rotr 25 x)

/-- Small sigma-0 function of the message schedule. -/
def smallSigma0 (x : Nat) : Nat := (rotr 7 x) ^^^ (rotr 18 x) ^^^ (shr 3 x)

/-- Small sigma-1 function of the message schedule. -/
def smallSigma1 (x : Nat) : Nat := (rotr 17 x) ^^^ (rotr 19 x) ^^^ (shr 10 x)

/-- Choice function; the complement is taken by xor with the all-ones word. -/
def ch (x y z : Nat) : Nat := (x &&& y) ^^^ ((x ^^^ 4294967295) &&& z)

/-- Majority function. -/
def maj (x y z : Nat) : Nat := (x &&& y) ^^^ (x &&& z) ^^^ (y &&& z)

/-- The 64 round constants. -/
def K : List Nat :=
  [1116352408, 1899447441, 3049323471, 3921009573, 961987163, 1508970993, 2453635748, 2870763221,
   3624381080, 310598401, 607225278, 1426881987, 1925078388, 2162078206, 2614888103, 3248222580,
   3835390401, 4022224774, 264347078, 604807628, 770255983, 1249150122, 1555081692, 1996064986,
   2554220882, 2821834349, 2952996808, 3210313671, 3336571891, 3584528711, 113926993, 338241895,
   666307205, 773529912, 1294757372, 1396182291, 1695183700, 1986661051, 2177026350, 2456956037,
   2730485921, 2820302411, 3259730800, 3345764771, 3516065817, 3600352804, 4094571909, 275423344,
   430227734, 506948616, 659060556, 883997877, 958139571, 1322822218, 1537002063, 1747873779,
   1955562222, 2024104815, 2227730452, 2361852424, 2428436474, 2756734187, 3204031479, 3329325298]

/-- Big-endian byte encoding of a number in `n` bytes. -/
def toBytesBE : Nat → Nat → List Nat
  | 0, _ => []
  | n + 1, v => toBytesBE n (v / 256) ++ [v % 256]

/-- Pad a byte message to a multiple of 64 bytes: a `0x80` byte, zero bytes,
and the 8-byte big-endian bit length. -/
def padMessage (msg : List Nat) : List Nat :=
  let l := msg.length
  let k := (64 - ((l + 9) % 64)) % 64
  msg ++ [128] ++ List.replicate k 0 ++ toBytesBE 8 (8 * l)

/-- Split a byte list into chunks of 64 bytes; the fuel argument bounds the
number of chunks and keeps the recursion structural. -/
def chunk64Fuel : Nat → List Nat → List (List Nat)
  | 0, _ => []
  | _ + 1, [] => []
  | fuel + 1, x :: xs => ((x :: xs).take 64) :: chunk64Fuel fuel ((x :: xs).drop 64)

/-- Split a byte list into chunks of 64 bytes. -/
def chunk64 (xs : List Nat) : List (List Nat) := chunk64Fuel xs.length xs

/-- Interpret bytes as big-endian 32-bit words. -/
def bytesToWords : List Nat → List Nat
  | b0 :: b1 :: b2 :: b3 :: rest =>
      (((b0 * 256 + b1) * 256 + b2) * 256 + b3) :: bytesToWords rest
  | _ => []

/-- One extension step of the message schedule: append word `w.length`. -/
def scheduleStep (w : List Nat) : List Nat :=
  let i := w.length
  w ++ [w32 (w.getD (i - 16) 0 + smallSigma0 (w.getD (i - 15) 0) +
             w.getD (i - 7) 0 + smallSigma1 (w.getD (i - 2) 0))]

/-- Extend the 16 block words to the 64-entry message schedule. -/
def schedule (w16 : List Nat) : List Nat :=
  (List.range 48).foldl (fun w _ => scheduleStep w) w16

/-- The eight working registers of the compression function. -/
structure Regs where
  a : Nat
  b : Nat
  c : Nat
  d : Nat
  e : Nat
  f : Nat
  g : Nat
  h : Nat
  deriving DecidableEq

/-- One round of the compression function. -/
def roundStep (r : Regs) (k w : Nat) : Regs :=
  let t1 := w32 (r.h + bigSigma1 r.e + ch r.e r.f r.g + k + w)
  let t2 := w32 (bigSigma0 r.a + maj r.a r.b r.c)
  ⟨w32 (t1 + t2), r.a, r.b, r.c, w32 (r.d + t1), r.e, r.f, r.g⟩

/-- Initial hash value. -/
def initRegs : Regs :=
  ⟨1779033703, 3144134277, 1013904242, 2773480762,
   1359893119, 2600822924, 528734635, 1541459225⟩

/-- Compress one 64-byte block into the running hash value. -/
def compressBlock (hs : Regs) (block : List Nat) : Regs :=
  let w := schedule (bytesToWords block)
  let r := (List.zip K w).foldl (fun r kw => roundStep r kw.1 kw.2) hs
  ⟨w32 (hs.a + r.a), w32 (hs.b + r.b), w32 (hs.c + r.c), w32 (hs.d + r.d),
   w32 (hs.e + r.e), w32 (hs.f + r.f), w32 (hs.g + r.g), w32 (hs.h + r.h)⟩

/-- SHA-256 digest of a byte list, as 32 digest bytes. -/
def sha256 (msg : List Nat) : List Nat :=
  let fin := (chunk64 (padMessage msg)).foldl compressBlock initRegs
  toBytesBE 4 fin.a ++ toBytesBE 4 fin.b ++ toBytesBE 4 fin.c ++ toBytesBE 4 fin.d ++
  toBytesBE 4 fin.e ++ toBytesBE 4 fin.f ++ toBytesBE 4 fin.g ++ toBytesBE 4 fin.h

/-- Lower-case hex digit for a value below 16. -/
def hexDigit (n : Nat) : Char :=
  if n < 10 then Char.ofNat (48 + n) else Char.ofNat (87 + n)

/-- Two lower-case hex digits of a byte. -/
def byteToHex (b : Nat) : List Char := [hexDigit (b / 16), hexDigit (b % 16)]

/-- Lower-case hex digest string of a byte list, as `hexdigest()` returns. -/
def hexDigest (bs : List Nat) : String := String.mk (bs.flatMap byteToHex)

end SHA256

/-- UTF-8 encoding of one character, as `str.encode` produces. -/
def utf8EncodeChar (c : Char) : List Nat :=
  let n := c.toNat
  if n < 128 then [n]
  else if n < 2048 then [192 + n / 64, 128 + n % 64]
  else if n < 65536 then [224 + n / 4096, 128 + (n / 64) % 64, 128 + n % 64]
  else [240 + n / 262144, 128 + (n / 4096) % 64, 128 + (n / 64) % 64, 128 + n % 64]

/-- UTF-8 encoding of a string to bytes. -/
def utf8Encode (s : String) : List Nat := s.data.flatMap utf8EncodeChar

/-! ## Data model

The domain records consumed by the query engine and the cache manager.
The module `intentgraph/domain/models.py` itself is not part of the sources
at hand; the fields below are the ones the sources read, modelled from the
data model section of the specification (Symbol, Export, Function
Dependency, File Record, Analysis Result) and from their uses in
`query_engine.py` and `cache.py`.  Identifiers (`UUID` values in the
source) are modelled as `Nat`; paths and language tags as `String`.
-/

/-- One named declaration in one file (`CodeSymbol`). -/
structure CodeSymbol where
  name : String
  symbol_type : String
  line_start : Nat
  line_end : Nat
  signature : Option String
  is_exported : Bool
  is_private : Bool
  id : Nat
  deriving DecidableEq

/-- A name exposed by a file's public interface (`APIExport`). -/
structure APIExport where
  name : String
  export_type : String
  deriving DecidableEq

/-- A directed call/use edge between two symbols (`FunctionDependency`). -/
structure FunctionDependency where
  from_symbol : Nat
  to_symbol : Nat
  to_file : Nat
  dependency_type : String
  line_number : Nat
  context : Option String
  deriving DecidableEq

/-- One analyzed source file (`FileInfo`).  `complexity_score` is read by
the search filter with a default of zero when no metric was collected. -/
structure FileInfo where
  id : Nat
  path : String
  language : String
  sha256 : String
  loc : Nat
  complexity_score : Nat
  symbols : List CodeSymbol
  exports : List APIExport
  function_dependencies : List FunctionDependency
  dependencies : List Nat
  deriving DecidableEq

/-- The complete immutable snapshot of the repository graph
(`AnalysisResult`). -/
structure AnalysisResult where
  root : String
  files : List FileInfo
  deriving DecidableEq

/-- Python dictionary built by iterating `xs` and assigning `keyOf x`, with
later assignments overwriting earlier ones; lookup of key `k`. -/
def pyDict {α κ : Type} [DecidableEq κ] (keyOf : α → κ) (xs : List α) (k : κ) : Option α :=
  xs.foldl (fun acc x => if keyOf x = k then some x else acc) none

/-! ## Query engine

Shallow embedding of `query_engine.py`.  The constructor builds four
dictionaries by iterating over `result.files`; they are modelled by the
lookup functions below, which reproduce the insertion semantics exactly
(`pyDict` for the overwriting dictionaries, ordered accumulation for the
`setdefault`-and-append ones).
-/

namespace QueryEngine

/-- Errors the query methods can raise: `FileNotFoundError` from `context`
and `symbols`, and `re.error` escaping from `re.search` on a malformed
pattern. -/
inductive PyError where
  | fileNotFound (path : String)
  | regexError
  deriving DecidableEq

/-- Index `_file_by_id`: built as `_file_by_id[fi.id] = fi` over the files
in order, so a later file with the same identifier overwrites an earlier
one. -/
def file_by_id (r : AnalysisResult) (i : Nat) : Option FileInfo :=
  pyDict FileInfo.id r.files i

/-- Index `_file_by_path`: built as `_file_by_path[str(fi.path)] = fi` over
the files in order. -/
def file_by_path (r : AnalysisResult) (p : String) : Option FileInfo :=
  pyDict FileInfo.path r.files p

/-- Index `_symbol_by_name`: `setdefault(name, []).append((fi, sym))` over
files in order and symbols in file order. -/
def symbol_by_name (r : AnalysisResult) (name : String) : List (FileInfo × CodeSymbol) :=
  r.files.flatMap (fun fi =>
    (fi.symbols.filter (fun s => s.name = name)).map (fun s => (fi, s)))

/-- Index `_reverse_deps`: `setdefault(dep_id, []).append(fi.id)` over files
in order and their dependency lists in order. -/
def reverse_deps (r : AnalysisResult) (i : Nat) : List Nat :=
  r.files.flatMap (fun fi =>
    (fi.dependencies.filter (fun d => d = i)).map (fun _ => fi.id))

/-- One entry of the `callers` result list. -/
structure CallerEntry where
  file : String
  line : Nat
  context : Option String
  deriving DecidableEq

/-- Return value of `callers`. -/
structure CallersOutput where
  symbol : String
  callers : List CallerEntry
  deriving DecidableEq

/-- Method `callers`: collect the identifiers of all symbols with the given
name, then scan every file's function dependencies for edges whose target
is one of those identifiers. -/
def callers (r : AnalysisResult) (symbol_name : String) : CallersOutput :=
  let target_sym_ids := (symbol_by_name r symbol_name).map (fun fs => fs.2.id)
  ⟨symbol_name,
   r.files.flatMap (fun fi =>
     (fi.function_dependencies.filter (fun fd => fd.to_symbol ∈ target_sym_ids)).map
       (fun fd => ⟨fi.path, fd.line_number, fd.context⟩))⟩

/-- One entry of the `deps` and `dependents` result lists. -/
structure DepEntry where
  file : String
  dependency_type : String
  deriving DecidableEq

/-- Return value of `dependents`. -/
structure DependentsOutput where
  file : String
  dependents : List DepEntry
  deriving DecidableEq

/-- Method `dependents`: files that declare the given file as a dependency;
an unknown path yields an empty list. -/
def dependents (r : AnalysisResult) (file_path : String) : DependentsOutput :=
  match file_by_path r file_path with
  | none => ⟨file_path, []⟩
  | some fi =>
    ⟨file_path,
     (reverse_deps r fi.id).filterMap (fun dep_id =>
       (file_by_id r dep_id).map (fun dep_fi => ⟨dep_fi.path, "file-level"⟩))⟩

/-- Return value of `deps`. -/
structure DepsOutput where
  file : String
  deps : List DepEntry
  deriving DecidableEq

/-- Method `deps`: files the given file declares as dependencies; an unknown
path yields an empty list, and dependency identifiers with no file record
are silently skipped. -/
def deps (r : AnalysisResult) (file_path : String) : DepsOutput :=
  match file_by_path r file_path with
  | none => ⟨file_path, []⟩
  | some fi =>
    ⟨file_path,
     fi.dependencies.filterMap (fun dep_id =>
       (file_by_id r dep_id).map (fun dep_fi => ⟨dep_fi.path, "file-level"⟩))⟩

/-- The dictionary `_symbol_to_dict` produces for one symbol. -/
structure SymbolDict where
  name : String
  type : String
  line_start : Nat
  line_end : Nat
  signature : Option String
  is_exported : Bool
  is_private : Bool
  deriving DecidableEq

/-- Helper `_symbol_to_dict`. -/
def symbol_to_dict (sym : CodeSymbol) : SymbolDict :=
  ⟨sym.name, sym.symbol_type, sym.line_start, sym.line_end, sym.signature,
   sym.is_exported, sym.is_private⟩

/-- One entry of the `exports` list of `context`. -/
structure ExportEntry where
  name : String
  export_type : String
  deriving DecidableEq

/-- Return value of `context`. -/
structure ContextOutput where
  file : String
  language : String
  loc : Nat
  sha256 : String
  symbols : List SymbolDict
  exports : List ExportEntry
  deps : List DepEntry
  dependents : List DepEntry
  deriving DecidableEq

/-- Method `context`: everything known about one file; raises
`FileNotFoundError` when the path is not in the analysis result. -/
def context (r : AnalysisResult) (file_path : String) : Except PyError ContextOutput :=
  match file_by_path r file_path with
  | none => Except.error (PyError.fileNotFound file_path)
  | some fi =>
    Except.ok
      ⟨file_path, fi.language, fi.loc, fi.sha256,
       fi.symbols.map symbol_to_dict,
       fi.exports.map (fun ex => ⟨ex.name, ex.export_type⟩),
       (deps r file_path).deps,
       (dependents r file_path).dependents⟩

/-- Return value of `symbols`. -/
structure SymbolsOutput where
  file : String
  symbols : List SymbolDict
  deriving DecidableEq

/-- Method `symbols`: all symbols of one file; raises `FileNotFoundError`
when the path is not in the analysis result. -/
def symbols (r : AnalysisResult) (file_path : String) : Except PyError SymbolsOutput :=
  match file_by_path r file_path with
  | none => Except.error (PyError.fileNotFound file_path)
  | some fi => Except.ok ⟨file_path, fi.symbols.map symbol_to_dict⟩

/-- The regular-expression matcher `re.search` of the standard library,
taken as a parameter of the embedding: applied to a pattern and a subject
string it either raises (`re.error`, for a malformed pattern) or reports
whether the pattern matches somewhere in the subject. -/
def RegexEngine : Type := String → String → Except PyError Bool

/-- Helper `_passes_name_pattern`: `re.search(name_pattern, str(fi.path))`;
any `re.error` propagates. -/
def passes_name_pattern (re : RegexEngine) (fi : FileInfo) :
    Option String → Except PyError Bool
  | none => Except.ok true
  | some pat => re pat fi.path

/-- Helper `_passes_lang`: case-insensitive comparison of language tags. -/
def passes_lang (fi : FileInfo) : Option String → Bool
  | none => true
  | some lang => fi.language.toLower = lang.toLower

/-- Helper `_passes_has_symbol`: exact, case-sensitive symbol-name match. -/
def passes_has_symbol (fi : FileInfo) : Option String → Bool
  | none => true
  | some has_symbol => fi.symbols.any (fun s => s.name = has_symbol)

/-- Helper `_passes_complexity`: a score of zero means no metric was
collected and never excludes the file; a nonzero score must exceed the
threshold. -/
def passes_complexity (fi : FileInfo) : Option Nat → Bool
  | none => true
  | some complexity_gt =>
    if fi.complexity_score = 0 then true
    else decide (complexity_gt < fi.complexity_score)

/-- Echo of the query parameters returned by `search`. -/
structure QueryEcho where
  name_pattern : Option String
  complexity_gt : Option Nat
  lang : Option String
  has_symbol : Option String
  deriving DecidableEq

/-- One entry of the `search` result list. -/
structure SearchEntry where
  file : String
  language : String
  loc : Nat
  symbol_count : Nat
  deriving DecidableEq

/-- Return value of `search`. -/
structure SearchOutput where
  query : QueryEcho
  results : List SearchEntry
  deriving DecidableEq

/-- Filtering loop of `search`: for each file in order the name-pattern
filter runs first and a regex error from it propagates; the remaining
filters are pure and a file failing any of them is skipped. -/
def searchFilter (re : RegexEngine) (name_pattern : Option String)
    (complexity_gt : Option Nat) (lang : Option String) (has_symbol : Option String) :
    List FileInfo → Except PyError (List FileInfo)
  | [] => Except.ok []
  | fi :: rest => do
    let np ← passes_name_pattern re fi name_pattern
    let tail ← searchFilter re name_pattern complexity_gt lang has_symbol rest
    if np && passes_lang fi lang && passes_has_symbol fi has_symbol &&
        passes_complexity fi complexity_gt then
      pure (fi :: tail)
    else
      pure tail

/-- Method `search`: all supplied filters are conjoined; absent filters pass
everything; the result echoes the query parameters. -/
def search (re : RegexEngine) (r : AnalysisResult) (name_pattern : Option String)
    (complexity_gt : Option Nat) (lang : Option String) (has_symbol : Option String) :
    Except PyError SearchOutput := do
  let included ← searchFilter re name_pattern complexity_gt lang has_symbol r.files
  pure ⟨⟨name_pattern, complexity_gt, lang, has_symbol⟩,
        included.map (fun fi => ⟨fi.path, fi.language, fi.loc, fi.symbols.length⟩)⟩

/-- Return value of `path`. -/
structure PathOutput where
  fromFile : String
  toFile : String
  pathList : List String
  found : Bool
  deriving DecidableEq

/-- The `predecessors` dictionary of the breadth-first search: keys are file
identifiers, values are the predecessor identifier or `none` for the start
node.  Keys are only ever inserted fresh, in insertion order, so lookup is
the first (unique) matching entry. -/
def plookup (preds : List (Nat × Option Nat)) (k : Nat) : Option (Option Nat) :=
  (preds.find? (fun e => e.1 = k)).map Prod.snd

/-- Stored dependency list of a file identifier; the source indexes
`_file_by_id[current_id]` directly, and the key is always present because
the start node comes from the path index and every other node passed the
membership guard before being enqueued. -/
def depsOf (r : AnalysisResult) (i : Nat) : List Nat :=
  match file_by_id r i with
  | some fi => fi.dependencies
  | none => []

/-- Inner loop of the search: scan the dependency list of `current`,
skipping identifiers with no file record (guard first) and identifiers
already in `predecessors`; record fresh nodes with their predecessor, break
with success as soon as the target is recorded, and append other fresh
nodes to the queue. -/
def bfsScan (r : AnalysisResult) (target current : Nat) :
    List Nat → List (Nat × Option Nat) → List Nat →
    List (Nat × Option Nat) × List Nat × Bool
  | [], preds, queue => (preds, queue, false)
  | d :: ds, preds, queue =>
    if (file_by_id r d).isNone then bfsScan r target current ds preds queue
    else if (plookup preds d).isSome then bfsScan r target current ds preds queue
    else if d = target then (preds ++ [(d, some current)], queue, true)
    else bfsScan r target current ds (preds ++ [(d, some current)]) (queue ++ [d])

/-- Outer loop of the search: `while queue and not found`, popping from the
left.  The fuel argument only bounds the iteration count to keep the
recursion structural; `bfsLoop_measure` below shows the fuel passed by
`path` is never exhausted. -/
def bfsLoop (r : AnalysisResult) (target : Nat) :
    Nat → List (Nat × Option Nat) → List Nat → List (Nat × Option Nat) × Bool
  | 0, preds, _ => (preds, false)
  | _ + 1, preds, [] => (preds, false)
  | fuel + 1, preds, c :: rest =>
    match bfsScan r target c (depsOf r c) preds rest with
    | (preds1, _, true) => (preds1, true)
    | (preds1, queue1, false) => bfsLoop r target fuel preds1 queue1

/-- Path reconstruction: follow predecessor links from a node back to the
start node, collecting identifiers; the source's `while node is not None`
loop, with fuel bounded by the dictionary size. -/
def walkBack (preds : List (Nat × Option Nat)) : Nat → Nat → List Nat
  | 0, node => [node]
  | fuel + 1, node =>
    match plookup preds node with
    | some (some p) => node :: walkBack preds fuel p
    | _ => [node]

/-- Resolve an identifier on the reconstructed path to its file path string
(`self._file_by_id[n].path`; the key is always present for path nodes). -/
def pathOfId (r : AnalysisResult) (i : Nat) : String :=
  match file_by_id r i with
  | some fi => fi.path
  | none => ""

/-- Method `path`: equal endpoints short-circuit to a one-element path; an
unknown endpoint yields not-found; otherwise breadth-first search over the
forward dependency graph, reconstructing the identifier path on success. -/
def path (r : AnalysisResult) (file_a file_b : String) : PathOutput :=
  if file_a = file_b then ⟨file_a, file_b, [file_a], true⟩
  else
    match file_by_path r file_a, file_by_path r file_b with
    | some fa, some fb =>
      match bfsLoop r fb.id (2 * r.files.length + 1) [(fa.id, none)] [fa.id] with
      | (preds, true) =>
        ⟨file_a, file_b,
         ((walkBack preds preds.length fb.id).reverse).map (pathOfId r), true⟩
      | (_, false) => ⟨file_a, file_b, [], false⟩
    | _, _ => ⟨file_a, file_b, [], false⟩

end QueryEngine

/-! ## Cache manager

Shallow embedding of `cache.py`.  The on-disk world is modelled explicitly:
the tracked source files as an association list from repository-relative
path to bytes, and the cache file as one of three shapes — absent, present
but failing JSON parsing or model validation, or a parsed envelope carrying
a schema version and a validated analysis result.  Serialization through
`model_dump`/`model_validate` (the pydantic layer, whose module is not in
the sources at hand) is modelled as the identity on the carried result, per
the specification's cache round-trip property. -/

namespace Cache

/-- The tracked files on disk: repository-relative path to file bytes. -/
def FileSystem : Type := List (String × List Nat)

/-- Read the bytes of one file. -/
def fsRead (fs : FileSystem) (p : String) : Option (List Nat) :=
  (fs.find? (fun e => e.1 = p)).map Prod.snd

/-- Content of the cache file location. -/
inductive CacheFile where
  | absent
  | garbled
  | envelope (schema_version : String) (payload : Option AnalysisResult)
  deriving DecidableEq

/-- Helper `_is_stale`: true when any tracked file is missing or its bytes
hash to a different digest than the one recorded at analysis time. -/
def is_stale (fs : FileSystem) (result : AnalysisResult) : Bool :=
  result.files.any (fun fi =>
    match fsRead fs fi.path with
    | none => true
    | some bytes => decide (SHA256.hexDigest (SHA256.sha256 bytes) ≠ fi.sha256))

/-- Method `load`: absent file, unparsable content, unknown schema version,
failed validation, and staleness all collapse to `none`. -/
def load (fs : FileSystem) (cf : CacheFile) : Option AnalysisResult :=
  match cf with
  | CacheFile.absent => none
  | CacheFile.garbled => none
  | CacheFile.envelope v payload =>
    if v ≠ "1" then none
    else
      match payload with
      | none => none
      | some result => if is_stale fs result then none else some result

/-- Failure injection for `save`: the write of the temp file or the final
rename may fail; `ok` is the unexceptional run. -/
inductive SaveOutcome where
  | ok
  | failWrite
  | failReplace
  deriving DecidableEq

/-- Method `save`, returning the final cache-file content, whether a temp
file is left behind, and whether the error propagated to the caller.  The
serialized envelope is written to a fresh temp file and moved over the
cache file with an atomic rename; on failure the temp file is unlinked and
the exception re-raised. -/
def save (cf : CacheFile) (result : AnalysisResult) (outcome : SaveOutcome) :
    CacheFile × Bool × Bool :=
  match outcome with
  | SaveOutcome.ok => (CacheFile.envelope "1" (some result), false, false)
  | SaveOutcome.failWrite => (cf, false, true)
  | SaveOutcome.failReplace => (cf, false, true)

/-- The successive contents of the cache file location during `save`:
after `mkstemp`, after writing the serialized envelope to the temp file,
and after the rename (which happens only in the unexceptional run).  The
temp file is a sibling file, so no step before the rename touches the cache
file location. -/
def saveTrace (cf : CacheFile) (result : AnalysisResult) (outcome : SaveOutcome) :
    List CacheFile :=
  match outcome with
  | SaveOutcome.ok => [cf, cf, CacheFile.envelope "1" (some result)]
  | SaveOutcome.failWrite => [cf, cf]
  | SaveOutcome.failReplace => [cf, cf, cf]

/-- Return value of `status`. -/
structure StatusOutput where
  cacheExists : Bool
  stale : Bool
  file_count : Nat
  cache_path : String
  deriving DecidableEq

/-- Method `status`: a diagnostic snapshot that never raises; parse and
validation failures are caught and reported as a stale cache with a zero
file count. -/
def status (repo_path : String) (fs : FileSystem) (cf : CacheFile) : StatusOutput :=
  let cache_path := repo_path ++ "/.intentgraph/cache.json"
  match cf with
  | CacheFile.absent => ⟨false, false, 0, cache_path⟩
  | CacheFile.garbled => ⟨true, true, 0, cache_path⟩
  | CacheFile.envelope v payload =>
    if v ≠ "1" then ⟨true, true, 0, cache_path⟩
    else
      match payload with
      | none => ⟨true, true, 0, cache_path⟩
      | some result => ⟨true, is_stale fs result, result.files.length, cache_path⟩

end Cache

/-! ## Language extractors

Shallow embedding of the identifier scheme and the dependency-list handling
of `typescript_parser.py` and `javascript_parser.py`.  The tree-sitter
library is external: its capture output (the list of import specifier
strings of a file) and the filesystem-probing import resolver
(`_resolve_import_path`) are taken as parameters, and the embedding covers
what the source does with them. -/

namespace TS

/-- Helper `_generate_symbol_id` of the TypeScript parser: the first 16
bytes of the SHA-256 digest of `file_path:kind:name:line`, where
`file_path` is the string of the path exactly as handed to the parser. -/
def generate_symbol_id (file_path kind name : String) (line : Nat) : List Nat :=
  (SHA256.sha256 (utf8Encode
    (file_path ++ ":" ++ kind ++ ":" ++ name ++ ":" ++ toString line))).take 16

/-- The identifier the TypeScript parser assigns to a symbol of a file at
repository-relative path `rel` inside a repository rooted at `root`: the
analyzer hands the parser the on-disk path `root/rel`, and the parser
hashes its string form. -/
def symbol_id_at (root rel kind name : String) (line : Nat) : List Nat :=
  generate_symbol_id (root ++ "/" ++ rel) kind name line

/-- Import specifiers kept by `extract_dependencies`: external module
specifiers (not starting with a dot or a slash) are skipped.  A single
character prefix test is the test on the first character. -/
def isLocalSpecifier (s : String) : Bool :=
  match s.data with
  | [] => false
  | c :: _ => c = Char.ofNat 46 || c = Char.ofNat 47

/-- Method `extract_dependencies` of the TypeScript parser: resolve each
local import specifier captured in the file, in capture order, and
accumulate the resolved repository-relative paths.  The accumulated list is
returned as is. -/
def extract_dependencies (resolve : String → List String) (captures : List String) :
    List String :=
  (captures.filter isLocalSpecifier).flatMap resolve

end TS

namespace JS

/-- Lexicographic comparison of code-point sequences, as Python compares
strings. -/
def pyStrLeChars : List Char → List Char → Bool
  | [], _ => true
  | _ :: _, [] => false
  | a :: as, b :: bs =>
    if a.toNat < b.toNat then true
    else if b.toNat < a.toNat then false
    else pyStrLeChars as bs

/-- Python string comparison `a <= b` by code points. -/
def pyStrLe (a b : String) : Bool := pyStrLeChars a.data b.data

/-- The identifier the JavaScript parser assigns to a symbol: the first 16
digest bytes (32 hex characters) of the SHA-256 digest of
`canonical_path#symbol_type#name#span`, where `canonical_path` is the file
path relative to the repository root and the span covers start and end line
and column. -/
def symbol_id (canonical_path symbol_type name : String)
    (line_start col_start line_end col_end : Nat) : List Nat :=
  (SHA256.sha256 (utf8Encode
    (canonical_path ++ "#" ++ symbol_type ++ "#" ++ name ++ "#" ++
     toString line_start ++ ":" ++ toString col_start ++ "-" ++
     toString line_end ++ ":" ++ toString col_end))).take 16

/-- Method `extract_dependencies` of the JavaScript parser: like the
TypeScript one, but the accumulated list is deduplicated and sorted before
being returned (`sorted(list(set(dependencies)))`). -/
def extract_dependencies (resolve : String → List String) (captures : List String) :
    List String :=
  (((captures.filter TS.isLocalSpecifier).flatMap resolve).dedup).insertionSort
    (fun a b => pyStrLe a b = true)

end JS

/-! ## Fixtures

Concrete values used by the concrete scenarios of the claims and by the
witnesses. -/

/-- A file whose complexity metric was never collected (score zero). -/
def zeroFile : FileInfo :=
  ⟨10, "zero", "python", "hz", 7, 0, [], [], [], []⟩

/-- A one-file analysis result around `zeroFile`. -/
def zeroResult : AnalysisResult := ⟨"/repo", [zeroFile]⟩

/-- A regex engine that always reports a match; the pattern filters of the
concrete scenarios below are all absent, so only its totality matters. -/
def okEngine : QueryEngine.RegexEngine := fun _ _ => Except.ok true

/-- Symbol `Baz` declared in file `b` of the callers scenario. -/
def symBaz : CodeSymbol :=
  ⟨"Baz", "class", 1, 20, some "class Baz:", true, false, 31⟩

/-- Symbol `bar` declared in file `a` of the callers scenario. -/
def symBar : CodeSymbol :=
  ⟨"bar", "function", 10, 15, none, false, true, 32⟩

/-- File `b` of the callers scenario: declares `Baz`. -/
def callersFileB : FileInfo :=
  ⟨2, "src/b.py", "python", "hb", 30, 0, [symBaz], [⟨"Baz", "class"⟩], [], []⟩

/-- File `a` of the callers scenario: declares `bar` and holds a function
dependency from `bar` to `Baz`. -/
def callersFileA : FileInfo :=
  ⟨1, "src/a.py", "python", "ha", 20, 0, [symBar], [],
   [⟨32, 31, 2, "calls", 12, some "baz_instance = Baz()"⟩], [2]⟩

/-- The two-file analysis result of the callers scenario. -/
def callersResult : AnalysisResult := ⟨"/repo", [callersFileA, callersFileB]⟩

/-- Identifiers of all symbols declared anywhere in the analysis result
under exactly the given name. -/
def declaredIds (r : AnalysisResult) (name : String) : List Nat :=
  ((r.files.flatMap FileInfo.symbols).filter (fun s => s.name = name)).map CodeSymbol.id

/-- Modelled from the standard library contract of `re.search`: the pattern
consisting of a single opening bracket is a malformed regular expression
(an unterminated character set) and raises `re.error`; whether well-formed
patterns match is irrelevant to the claims below, so they are modelled as
matching. -/
def reModel : QueryEngine.RegexEngine := fun pat _ =>
  if pat = "[" then Except.error QueryEngine.PyError.regexError else Except.ok true

/-- Bytes of the witness file before mutation. -/
def freshBytes : List Nat := utf8Encode "print(1)"

/-- Bytes of the witness file after mutation. -/
def mutatedBytes : List Nat := utf8Encode "print(2)"

/-- The tracked file of the cache witness; its recorded digest is the
digest of `freshBytes`. -/
def trackedFile : FileInfo :=
  ⟨1, "f.py", "python", SHA256.hexDigest (SHA256.sha256 freshBytes), 1, 0, [], [], [], []⟩

/-- The analysis result of the cache witness. -/
def trackedResult : AnalysisResult := ⟨"/repo", [trackedFile]⟩

/-- Resolver fixture for C7: `./b` resolves to `b.ts` and `./c` to
`c.ts`, as `_resolve_import_path` does when those files exist on disk. -/
def resolveFixture : String → List String := fun s =>
  if s = "./b" then ["b.ts"] else if s = "./c" then ["c.ts"] else []

namespace QueryEngine

/-- A chain of `k` stored dependency edges from `x` to `z`. -/
inductive Chain (r : AnalysisResult) : Nat → Nat → Nat → Prop where
  | refl (x : Nat) : Chain r x x 0
  | step {x y z k : Nat} : y ∈ depsOf r x → Chain r y z k → Chain r x z (k + 1)

/-- Reachability over stored dependency edges. -/
def Reachable (r : AnalysisResult) (x z : Nat) : Prop := ∃ k, Chain r x z k

/-- Least chain length from `x` to `z`. -/
def IsMinDist (r : AnalysisResult) (x z k : Nat) : Prop :=
  Chain r x z k ∧ ∀ j, Chain r x z j → k ≤ j

/-- Consecutive elements of the list are stored dependency edges. -/
def IsChainList (r : AnalysisResult) : List Nat → Prop
  | [] => True
  | [_] => True
  | x :: y :: rest => y ∈ depsOf r x ∧ IsChainList r (y :: rest)

/-- Keys of the predecessors dictionary. -/
def keysOf (preds : List (Nat × Option Nat)) : List Nat := preds.map Prod.fst

/-- Depth of a node in the predecessors dictionary: the number of parent
links followed until the start node (whose stored parent is `none`). -/
inductive PDepth (preds : List (Nat × Option Nat)) : Nat → Nat → Prop where
  | zero {v : Nat} : plookup preds v = some none → PDepth preds v 0
  | succ {v p k : Nat} : plookup preds v = some (some p) → PDepth preds p k →
      PDepth preds v (k + 1)

/-! ### Loop invariant -/

/-- All nodes with a file record whose least distance from the start is at
most `d` have been discovered. -/
def CompleteBelow (r : AnalysisResult) (root : Nat)
    (preds : List (Nat × Option Nat)) (d : Nat) : Prop :=
  ∀ z k, (file_by_id r z).isSome → IsMinDist r root z k → k ≤ d → z ∈ keysOf preds

/-- Invariant of the outer loop: the predecessors dictionary holds pairwise
distinct discovered nodes, each with a file record, whose parent chains are
shortest paths from the start; the queue holds the undiscovered frontier in
at most two consecutive depth levels; processed nodes have all their valid
neighbours discovered; and the target has not been discovered (the loop
returns as soon as it is). -/
structure BfsInv (r : AnalysisResult) (root target : Nat)
    (preds : List (Nat × Option Nat)) (queue : List Nat) : Prop where
  keys_nodup : (keysOf preds).Nodup
  keys_dom : ∀ v ∈ keysOf preds, (file_by_id r v).isSome
  root_mem : plookup preds root = some none
  parent_none : ∀ v pa, (v, pa) ∈ preds → pa = none → v = root
  parent_edge : ∀ v p, plookup preds v = some (some p) → v ∈ depsOf r p
  depth_min : ∀ v ∈ keysOf preds, ∃ k, PDepth preds v k ∧ IsMinDist r root v k
  queue_sub : ∀ v ∈ queue, v ∈ keysOf preds
  queue_nodup : queue.Nodup
  target_not : plookup preds target = none
  closure : ∀ u ∈ keysOf preds, u ∉ queue → ∀ v ∈ depsOf r u,
      (file_by_id r v).isSome → v ∈ keysOf preds
  levels : ∃ d q1 q2, queue = q1 ++ q2 ∧
      (∀ v ∈ q1, PDepth preds v d) ∧ (∀ v ∈ q2, PDepth preds v (d + 1)) ∧
      CompleteBelow r root preds d

/-- Invariant of the inner scan while node `c` of depth `d` is being
processed: `done` is the prefix of its dependency list already handled. -/
structure ScanInv (r : AnalysisResult) (root target c d : Nat)
    (done ds : List Nat) (preds : List (Nat × Option Nat)) (queue : List Nat) : Prop where
  keys_nodup : (keysOf preds).Nodup
  keys_dom : ∀ v ∈ keysOf preds, (file_by_id r v).isSome
  root_mem : plookup preds root = some none
  parent_none : ∀ v pa, (v, pa) ∈ preds → pa = none → v = root
  parent_edge : ∀ v p, plookup preds v = some (some p) → v ∈ depsOf r p
  depth_min : ∀ v ∈ keysOf preds, ∃ k, PDepth preds v k ∧ IsMinDist r root v k
  queue_sub : ∀ v ∈ queue, v ∈ keysOf preds
  queue_nodup : queue.Nodup
  target_not : plookup preds target = none
  c_mem : c ∈ keysOf preds
  c_depth : PDepth preds c d
  c_not_queue : c ∉ queue
  hsplit : depsOf r c = done ++ ds
  done_closed : ∀ v ∈ done, (file_by_id r v).isSome → v ∈ keysOf preds
  closure_other : ∀ u ∈ keysOf preds, u ∉ queue → u ≠ c → ∀ v ∈ depsOf r u,
      (file_by_id r v).isSome → v ∈ keysOf preds
  levels : ∃ q1 q2, queue = q1 ++ q2 ∧
      (∀ v ∈ q1, PDepth preds v d) ∧ (∀ v ∈ q2, PDepth preds v (d + 1)) ∧
      CompleteBelow r root preds d

/-- What holds of the predecessors dictionary when the search returns with
success: the structural facts needed to reconstruct the path, and a parent
chain for the target of exactly its least distance from the start. -/
structure FoundState (r : AnalysisResult) (root target : Nat)
    (preds : List (Nat × Option Nat)) : Prop where
  keys_nodup : (keysOf preds).Nodup
  keys_dom : ∀ v ∈ keysOf preds, (file_by_id r v).isSome
  parent_none : ∀ v pa, (v, pa) ∈ preds → pa = none → v = root
  parent_edge : ∀ v p, plookup preds v = some (some p) → v ∈ depsOf r p
  target_depth : ∃ k, PDepth preds target k ∧ IsMinDist r root target k

end QueryEngine

/-- File `a` of the path scenario, depending on `b`. -/
def chainFileA : FileInfo := ⟨1, "a", "python", "ha", 1, 0, [], [], [], [2]⟩

/-- File `b` of the path scenario, depending on `c`. -/
def chainFileB : FileInfo := ⟨2, "b", "python", "hb", 1, 0, [], [], [], [3]⟩

/-- File `c` of the path scenario, with no dependencies. -/
def chainFileC : FileInfo := ⟨3, "c", "python", "hc", 1, 0, [], [], [], []⟩

/-- The three-file analysis result of the path scenario. -/
def chainResult : AnalysisResult := ⟨"/repo", [chainFileA, chainFileB, chainFileC]⟩

/-! ## Claim C5 — complexity filter -/

/-- C5: for every file and every `complexity_gt` threshold, a complexity
score of exactly zero always passes the filter (zero means no metric
collected), a nonzero score passes exactly when it strictly exceeds the
threshold, and concretely a zero-scored file appears in the results of
`search(complexity_gt=5)`. -/
theorem complexity_zero_passes_filter :
    (∀ (fi : FileInfo) (g : Nat), fi.complexity_score = 0 →
        QueryEngine.passes_complexity fi (some g) = true)
  ∧ (∀ (fi : FileInfo) (g : Nat), fi.complexity_score ≠ 0 →
        (QueryEngine.passes_complexity fi (some g) = true ↔ g < fi.complexity_score))
  ∧ QueryEngine.search okEngine zeroResult none (some 5) none none =
      Except.ok ⟨⟨none, some 5, none, none⟩, [⟨"zero", "python", 7, 0⟩]⟩ := by
  refine ⟨fun fi g h => ?_, fun fi g h => ?_, rfl⟩
  · simp [QueryEngine.passes_complexity, h]
  · simp [QueryEngine.passes_complexity, h]

/-- Witness for C5: the zero-scored fixture file passes the filter at
threshold 5. -/
theorem complexity_zero_passes_filter_witness :
    QueryEngine.passes_complexity zeroFile (some 5) = true :=
  complexity_zero_passes_filter.1 zeroFile 5 rfl

/-! ## Claim C10 — status never raises -/

/-- C10: `status` is total and returns the four-field record for every
cache state: no cache file gives `exists = false` and `stale = false`; a
present but unparsable, invalid, or version-mismatched cache file gives
`exists = true`, `stale = true` and a zero file count; a valid envelope
reports the tracked file count and the staleness check. -/
theorem status_never_raises :
    (∀ (repo : String) (fs : Cache.FileSystem),
        Cache.status repo fs Cache.CacheFile.absent =
          ⟨false, false, 0, repo ++ "/.intentgraph/cache.json"⟩)
  ∧ (∀ (repo : String) (fs : Cache.FileSystem),
        Cache.status repo fs Cache.CacheFile.garbled =
          ⟨true, true, 0, repo ++ "/.intentgraph/cache.json"⟩)
  ∧ (∀ (repo : String) (fs : Cache.FileSystem) (v : String)
        (payload : Option AnalysisResult), v ≠ "1" →
        Cache.status repo fs (Cache.CacheFile.envelope v payload) =
          ⟨true, true, 0, repo ++ "/.intentgraph/cache.json"⟩)
  ∧ (∀ (repo : String) (fs : Cache.FileSystem),
        Cache.status repo fs (Cache.CacheFile.envelope "1" none) =
          ⟨true, true, 0, repo ++ "/.intentgraph/cache.json"⟩)
  ∧ (∀ (repo : String) (fs : Cache.FileSystem) (result : AnalysisResult),
        Cache.status repo fs (Cache.CacheFile.envelope "1" (some result)) =
          ⟨true, Cache.is_stale fs result, result.files.length,
           repo ++ "/.intentgraph/cache.json"⟩) := by
  refine ⟨fun repo fs => rfl, fun repo fs => rfl, fun repo fs v payload h => ?_,
          fun repo fs => rfl, fun repo fs result => rfl⟩
  simp [Cache.status, h]

/-- Witness for C10: a schema version other than the supported one is
reported as an existing stale cache with zero tracked files. -/
theorem status_never_raises_witness :
    Cache.status "/repo" [] (Cache.CacheFile.envelope "2" none) =
      ⟨true, true, 0, "/repo/.intentgraph/cache.json"⟩ :=
  (status_never_raises.2.2.1) "/repo" [] "2" none (by decide)

/-! ## Claim C8 — atomic save -/

/-- C8: every intermediate content of the cache file location during `save`
is either the previous complete content or the new complete envelope; on
the unexceptional run the final content is the new envelope with no error;
on any failure the temp file is removed, the error propagates, and the
cache file still holds the previous content. -/
theorem save_atomic :
    ∀ (cf : Cache.CacheFile) (result : AnalysisResult) (o : Cache.SaveOutcome),
      (∀ c ∈ Cache.saveTrace cf result o,
          c = cf ∨ c = Cache.CacheFile.envelope "1" (some result))
    ∧ (o = Cache.SaveOutcome.ok →
        Cache.save cf result o = (Cache.CacheFile.envelope "1" (some result), false, false))
    ∧ (o ≠ Cache.SaveOutcome.ok →
        Cache.save cf result o = (cf, false, true)) := by
  intro cf result o
  refine ⟨?_, ?_, ?_⟩
  · intro c hc
    cases o <;> simp [Cache.saveTrace] at hc <;> tauto
  · intro h; subst h; rfl
  · intro h; cases o with
    | ok => exact absurd rfl h
    | failWrite => rfl
    | failReplace => rfl

/-- Witness for C8: a failing write leaves an absent cache file absent, no
temp file behind, and the error propagated. -/
theorem save_atomic_witness :
    Cache.save Cache.CacheFile.absent zeroResult Cache.SaveOutcome.failWrite =
      (Cache.CacheFile.absent, false, true) :=
  (save_atomic Cache.CacheFile.absent zeroResult Cache.SaveOutcome.failWrite).2.2
    (by decide)

/-! ## Claim C9 — context agrees with the single-purpose queries -/

/-- C9: for every file path known to the analysis result, `context` returns
successfully and its `symbols`, `deps` and `dependents` fields equal the
corresponding fields of `symbols`, `deps` and `dependents` on the same
path. -/
theorem context_agrees_with_single_queries :
    ∀ (r : AnalysisResult) (fp : String) (fi : FileInfo),
      QueryEngine.file_by_path r fp = some fi →
      ∃ (ctx : QueryEngine.ContextOutput) (syms : QueryEngine.SymbolsOutput),
        QueryEngine.context r fp = Except.ok ctx ∧
        QueryEngine.symbols r fp = Except.ok syms ∧
        ctx.symbols = syms.symbols ∧
        ctx.deps = (QueryEngine.deps r fp).deps ∧
        ctx.dependents = (QueryEngine.dependents r fp).dependents := by
  intro r fp fi h
  refine ⟨⟨fp, fi.language, fi.loc, fi.sha256, fi.symbols.map QueryEngine.symbol_to_dict,
          fi.exports.map (fun ex => ⟨ex.name, ex.export_type⟩),
          (QueryEngine.deps r fp).deps, (QueryEngine.dependents r fp).dependents⟩,
         ⟨fp, fi.symbols.map QueryEngine.symbol_to_dict⟩, ?_, ?_, rfl, rfl, rfl⟩
  · simp [QueryEngine.context, h]
  · simp [QueryEngine.symbols, h]

/-- Witness for C9: the callers-scenario fixture at file `src/a.py`. -/
theorem context_agrees_with_single_queries_witness :
    ∃ (ctx : QueryEngine.ContextOutput) (syms : QueryEngine.SymbolsOutput),
      QueryEngine.context callersResult "src/a.py" = Except.ok ctx ∧
      QueryEngine.symbols callersResult "src/a.py" = Except.ok syms ∧
      ctx.symbols = syms.symbols ∧
      ctx.deps = (QueryEngine.deps callersResult "src/a.py").deps ∧
      ctx.dependents = (QueryEngine.dependents callersResult "src/a.py").dependents :=
  context_agrees_with_single_queries callersResult "src/a.py" callersFileA (by decide)

/-! ## Claim C6 — callers -/


/-- The identifiers collected from the symbol-name index are exactly the
identifiers of the symbols declared under the name. -/
lemma symbol_by_name_ids (r : AnalysisResult) (n : String) :
    (QueryEngine.symbol_by_name r n).map (fun fs => fs.2.id) = declaredIds r n := by
  unfold QueryEngine.symbol_by_name declaredIds
  induction r.files with
  | nil => rfl
  | cons fi rest ih =>
    simp only [List.flatMap_cons, List.map_append, List.filter_append, ih, List.map_map]
    rfl

/-- C6: `callers` returns one entry per function-dependency edge, across
all files, whose target identifier belongs to a symbol declared under
exactly (case-sensitively) the queried name; each entry carries the
declaring file's path, the recorded line number and context; edges whose
target is not declared in the result are never returned; a name with no
matches yields an empty list; and concretely, the `Baz`/`baz` scenario. -/
theorem callers_resolves_by_exact_name :
    (∀ (r : AnalysisResult) (n : String) (e : QueryEngine.CallerEntry),
        e ∈ (QueryEngine.callers r n).callers ↔
          ∃ fi ∈ r.files, ∃ fd ∈ fi.function_dependencies,
            fd.to_symbol ∈ declaredIds r n ∧
            e = ⟨fi.path, fd.line_number, fd.context⟩)
  ∧ (∀ (r : AnalysisResult) (n : String),
        (QueryEngine.callers r n).callers.length =
          (r.files.map (fun fi => (fi.function_dependencies.filter
              (fun fd => fd.to_symbol ∈ declaredIds r n)).length)).sum)
  ∧ (∀ (r : AnalysisResult) (n : String),
        (∀ s ∈ r.files.flatMap FileInfo.symbols, s.name ≠ n) →
        (QueryEngine.callers r n).callers = [])
  ∧ QueryEngine.callers callersResult "Baz" =
      ⟨"Baz", [⟨"src/a.py", 12, some "baz_instance = Baz()"⟩]⟩
  ∧ QueryEngine.callers callersResult "baz" = ⟨"baz", []⟩ := by
  refine ⟨?_, ?_, ?_, by decide, by decide⟩
  · intro r n e
    simp only [QueryEngine.callers, symbol_by_name_ids, List.mem_flatMap, List.mem_map,
      List.mem_filter, decide_eq_true_eq]
    constructor
    · rintro ⟨fi, hfi, fd, ⟨hfd, hmem⟩, rfl⟩
      exact ⟨fi, hfi, fd, hfd, hmem, rfl⟩
    · rintro ⟨fi, hfi, fd, hfd, hmem, rfl⟩
      exact ⟨fi, hfi, fd, ⟨hfd, hmem⟩, rfl⟩
  · intro r n
    simp only [QueryEngine.callers, symbol_by_name_ids]
    rw [List.length_flatMap]
    simp only [Function.comp_def, List.length_map]
  · intro r n h
    have hnone : declaredIds r n = [] := by
      unfold declaredIds
      rw [List.filter_eq_nil_iff.mpr, List.map_nil]
      intro s hs
      simpa using h s hs
    simp [QueryEngine.callers, symbol_by_name_ids, hnone]

/-- Witness for C6: applying the characterization to the concrete scenario
shows the single recorded entry satisfies it. -/
theorem callers_resolves_by_exact_name_witness :
    (⟨"src/a.py", 12, some "baz_instance = Baz()"⟩ : QueryEngine.CallerEntry) ∈
      (QueryEngine.callers callersResult "Baz").callers ∧
    (QueryEngine.callers callersResult "baz").callers = [] := by
  refine ⟨(callers_resolves_by_exact_name.1 callersResult "Baz" _).mpr ?_,
          callers_resolves_by_exact_name.2.2.1 callersResult "baz" (by decide)⟩
  exact ⟨callersFileA, by decide, ⟨32, 31, 2, "calls", 12, some "baz_instance = Baz()"⟩,
         by decide, by decide, rfl⟩

/-! ## Claim C4 — error taxonomy (corrected)

The claim asserts that `search` never raises for any input.  The source
line `re.search(name_pattern, str(fi.path))` has no handler, and
`re.search` raises `re.error` on a malformed pattern such as an
unterminated character set, so `search` applied to such a pattern (with at
least one file present) propagates the error.  The remaining parts of the
claim hold. -/


/-- C4 counterexample: `search` with the malformed name pattern of an
unterminated character set raises, refuting the claim that `search` never
raises for any input. -/
theorem search_raises_on_malformed_pattern :
    QueryEngine.search reModel zeroResult (some "[") none none none =
      Except.error QueryEngine.PyError.regexError := rfl

/-- Helper for C4: the search filter succeeds whenever the name-pattern
check succeeds on every file. -/
lemma searchFilter_ok (re : QueryEngine.RegexEngine) (np : Option String)
    (cg : Option Nat) (lg hs : Option String) (l : List FileInfo)
    (h : ∀ fi ∈ l, ∃ b, QueryEngine.passes_name_pattern re fi np = Except.ok b) :
    ∃ ys, QueryEngine.searchFilter re np cg lg hs l = Except.ok ys := by
  induction l with
  | nil => exact ⟨[], rfl⟩
  | cons fi rest ih =>
    obtain ⟨b, hb⟩ := h fi (List.mem_cons_self fi rest)
    obtain ⟨ys, hys⟩ := ih (fun x hx => h x (List.mem_cons_of_mem fi hx))
    have hstep : QueryEngine.searchFilter re np cg lg hs (fi :: rest) =
        if (b && QueryEngine.passes_lang fi lg && QueryEngine.passes_has_symbol fi hs &&
            QueryEngine.passes_complexity fi cg) = true
        then Except.ok (fi :: ys) else Except.ok ys := by
      conv_lhs => rw [QueryEngine.searchFilter]
      rw [hb, hys]
      rfl
    rw [hstep]
    split
    · exact ⟨fi :: ys, rfl⟩
    · exact ⟨ys, rfl⟩

/-- C4 amended: `context` and `symbols` raise a file-not-found error
exactly when the path is unknown; `callers`, `dependents`, `deps` and
`path` return their empty/negative structures for unknown inputs without
raising; and `search` does not raise provided the name pattern is absent or
succeeds under the regex engine on every file path — a malformed pattern is
the one input on which it raises. -/
theorem query_error_taxonomy :
    (∀ (r : AnalysisResult) (fp : String),
        QueryEngine.file_by_path r fp = none →
          QueryEngine.context r fp = Except.error (QueryEngine.PyError.fileNotFound fp) ∧
          QueryEngine.symbols r fp = Except.error (QueryEngine.PyError.fileNotFound fp) ∧
          QueryEngine.dependents r fp = ⟨fp, []⟩ ∧
          QueryEngine.deps r fp = ⟨fp, []⟩)
  ∧ (∀ (r : AnalysisResult) (fp : String) (fi : FileInfo),
        QueryEngine.file_by_path r fp = some fi →
          (QueryEngine.context r fp).isOk = true ∧
          (QueryEngine.symbols r fp).isOk = true)
  ∧ (∀ (r : AnalysisResult) (n : String),
        (∀ s ∈ r.files.flatMap FileInfo.symbols, s.name ≠ n) →
        (QueryEngine.callers r n).callers = [])
  ∧ (∀ (r : AnalysisResult) (a b : String), a ≠ b →
        (QueryEngine.file_by_path r a = none ∨ QueryEngine.file_by_path r b = none) →
        QueryEngine.path r a b = ⟨a, b, [], false⟩)
  ∧ (∀ (re : QueryEngine.RegexEngine) (r : AnalysisResult) (np : Option String)
        (cg : Option Nat) (lg hs : Option String),
        (∀ pat, np = some pat → ∀ fi ∈ r.files, ∃ b, re pat fi.path = Except.ok b) →
        (QueryEngine.search re r np cg lg hs).isOk = true) := by
  refine ⟨?_, ?_, ?_, ?_, ?_⟩
  · intro r fp h
    exact ⟨by simp [QueryEngine.context, h], by simp [QueryEngine.symbols, h],
           by simp [QueryEngine.dependents, h], by simp [QueryEngine.deps, h]⟩
  · intro r fp fi h
    exact ⟨by simp [QueryEngine.context, h, Except.isOk, Except.toBool],
           by simp [QueryEngine.symbols, h, Except.isOk, Except.toBool]⟩
  · intro r n h
    exact callers_resolves_by_exact_name.2.2.1 r n h
  · intro r a b hab h
    cases hA : QueryEngine.file_by_path r a <;> cases hB : QueryEngine.file_by_path r b <;>
      simp_all [QueryEngine.path, hab]
  · intro re r np cg lg hs h
    have hnp : ∀ fi ∈ r.files, ∃ b, QueryEngine.passes_name_pattern re fi np = Except.ok b := by
      intro fi hfi
      cases np with
      | none => exact ⟨true, rfl⟩
      | some pat => exact h pat rfl fi hfi
    obtain ⟨ys, hys⟩ := searchFilter_ok re np cg lg hs r.files hnp
    simp [QueryEngine.search, hys, Except.isOk, Except.toBool]

/-- Witness for C4: the taxonomy applied to the concrete fixtures — unknown
path behavior on the zero-file fixture and a raising-free search with an
absent pattern. -/
theorem query_error_taxonomy_witness :
    QueryEngine.context zeroResult "nope" =
      Except.error (QueryEngine.PyError.fileNotFound "nope") ∧
    QueryEngine.path zeroResult "zero" "nope" = ⟨"zero", "nope", [], false⟩ ∧
    (QueryEngine.search reModel zeroResult none (some 5) none none).isOk = true := by
  refine ⟨(query_error_taxonomy.1 zeroResult "nope" (by decide)).1,
          query_error_taxonomy.2.2.2.1 zeroResult "zero" "nope" (by decide)
            (Or.inr (by decide)),
          query_error_taxonomy.2.2.2.2 reModel zeroResult none (some 5) none none
            (fun pat hpat => by simp at hpat)⟩

/-! ## Claim C3 — cache round-trip and staleness -/

/-- Helper for C3: the staleness check passes when every tracked file's
bytes hash to the recorded digest. -/
lemma is_stale_false_of_fresh (fs : Cache.FileSystem) (result : AnalysisResult)
    (h : ∀ fi ∈ result.files, ∃ b, Cache.fsRead fs fi.path = some b ∧
         SHA256.hexDigest (SHA256.sha256 b) = fi.sha256) :
    Cache.is_stale fs result = false := by
  unfold Cache.is_stale
  rw [List.any_eq_false]
  intro fi hfi
  obtain ⟨b, hb, hdg⟩ := h fi hfi
  simp [hb, hdg]

/-- Helper for C3: the staleness check fires when some tracked file is
missing or hashes to a different digest. -/
lemma is_stale_true_of_mutated (fs : Cache.FileSystem) (result : AnalysisResult)
    (fi : FileInfo) (hfi : fi ∈ result.files)
    (h : Cache.fsRead fs fi.path = none ∨
         ∃ b, Cache.fsRead fs fi.path = some b ∧
           SHA256.hexDigest (SHA256.sha256 b) ≠ fi.sha256) :
    Cache.is_stale fs result = true := by
  unfold Cache.is_stale
  rw [List.any_eq_true]
  refine ⟨fi, hfi, ?_⟩
  rcases h with h | ⟨b, hb, hne⟩
  · simp [h]
  · simp [hb, hne]

/-- C3: after `save`, if every tracked file's on-disk bytes still hash to
the recorded digest, `load` returns a result with identical file count and
identical per-file content hashes (in fact the saved result itself); if any
one tracked file is missing or its bytes hash differently, `load` returns
absent; and a filesystem restored to the recorded hashes (the first
hypothesis again) makes `load` succeed again. -/
theorem cache_roundtrip_and_staleness :
    ∀ (cf : Cache.CacheFile) (result : AnalysisResult) (fsFresh fsMut : Cache.FileSystem),
      (∀ fi ∈ result.files, ∃ b, Cache.fsRead fsFresh fi.path = some b ∧
          SHA256.hexDigest (SHA256.sha256 b) = fi.sha256) →
      (Cache.load fsFresh (Cache.save cf result Cache.SaveOutcome.ok).1 = some result ∧
       ∃ r2, Cache.load fsFresh (Cache.save cf result Cache.SaveOutcome.ok).1 = some r2 ∧
         r2.files.length = result.files.length ∧
         r2.files.map FileInfo.sha256 = result.files.map FileInfo.sha256) ∧
      (∀ fi ∈ result.files,
        (Cache.fsRead fsMut fi.path = none ∨
         ∃ b, Cache.fsRead fsMut fi.path = some b ∧
           SHA256.hexDigest (SHA256.sha256 b) ≠ fi.sha256) →
        Cache.load fsMut (Cache.save cf result Cache.SaveOutcome.ok).1 = none) := by
  intro cf result fsFresh fsMut hfresh
  have hsaved : (Cache.save cf result Cache.SaveOutcome.ok).1 =
      Cache.CacheFile.envelope "1" (some result) := rfl
  constructor
  · have hload : Cache.load fsFresh (Cache.save cf result Cache.SaveOutcome.ok).1 =
        some result := by
      rw [hsaved]
      simp [Cache.load, is_stale_false_of_fresh fsFresh result hfresh]
    exact ⟨hload, result, hload, rfl, rfl⟩
  · intro fi hfi hmut
    rw [hsaved]
    simp [Cache.load, is_stale_true_of_mutated fsMut result fi hfi hmut]


/-- Witness for C3: with the tracked file unchanged the cache loads the
saved result; with its bytes mutated the cache reports absent. -/
theorem cache_roundtrip_and_staleness_witness :
    Cache.load [("f.py", freshBytes)]
        (Cache.save Cache.CacheFile.absent trackedResult Cache.SaveOutcome.ok).1 =
      some trackedResult ∧
    Cache.load [("f.py", mutatedBytes)]
        (Cache.save Cache.CacheFile.absent trackedResult Cache.SaveOutcome.ok).1 = none := by
  have h := cache_roundtrip_and_staleness Cache.CacheFile.absent trackedResult
    [("f.py", freshBytes)] [("f.py", mutatedBytes)]
    (by
      intro fi hfi
      have hfi2 : fi = trackedFile := by simpa [trackedResult] using hfi
      subst hfi2
      exact ⟨freshBytes, rfl, rfl⟩)
  exact ⟨h.1.1, h.2 trackedFile (by simp [trackedResult])
    (Or.inr ⟨mutatedBytes, rfl, by decide⟩)⟩

/-! ## Claim C1 — symbol identifiers (code bug in the TypeScript parser)

The specification's central invariant derives a symbol identifier from the
canonical repository-relative path.  The JavaScript parser does exactly
that (`file_path.relative_to(repo_path)`), but the TypeScript parser hashes
`str(file_path)` as passed — and its callers (the analyzer via
`repository_path.resolve()`, and the parser test suite) pass absolute
paths — so the same file bytes at the same relative path produce different
TypeScript symbol identifiers under different repository roots. -/

/-- C1: evaluating the TypeScript identifier scheme at the failing input —
one file `a.ts` with fixed contents at relative path `a.ts` under two
different repository roots — yields two different identifiers, while the
JavaScript identifier scheme, which keys on the relative path, does not
depend on the root at all. -/
theorem ts_symbol_id_depends_on_repo_location :
    TS.symbol_id_at "/tmp/repo1" "a.ts" "function" "f" 1 ≠
      TS.symbol_id_at "/tmp/repo2" "a.ts" "function" "f" 1 ∧
    TS.symbol_id_at "/tmp/repo1" "a.ts" "function" "f" 1 =
      TS.generate_symbol_id "/tmp/repo1/a.ts" "function" "f" 1 := by
  exact ⟨by decide, rfl⟩

/-! ## Claim C7 — extractor dependency lists (code bug in the TypeScript
and Go parsers)

The extractor contract requires `extract_dependencies` to return a
deduplicated, sorted list.  The JavaScript parser ends with
`sorted(list(set(dependencies)))`; the TypeScript parser (and the Go
parser) return the accumulated list as is, so a file importing the same
module twice yields a duplicated entry, and imports resolving in
non-alphabetical capture order yield an unsorted list. -/


/-- C7: evaluating the TypeScript extractor at the failing inputs — a file
importing `./b` twice yields the duplicated, non-deduplicated list, and a
file importing `./c` before `./b` yields an unsorted list — while the
JavaScript extractor deduplicates and sorts the same inputs. -/
theorem ts_extract_dependencies_not_dedup_sorted :
    TS.extract_dependencies resolveFixture ["./b", "./b"] = ["b.ts", "b.ts"] ∧
    ¬ (TS.extract_dependencies resolveFixture ["./b", "./b"]).Nodup ∧
    TS.extract_dependencies resolveFixture ["./c", "./b"] = ["c.ts", "b.ts"] ∧
    ¬ List.Sorted (fun a b => JS.pyStrLe a b = true)
        (TS.extract_dependencies resolveFixture ["./c", "./b"]) ∧
    JS.extract_dependencies resolveFixture ["./b", "./b"] = ["b.ts"] ∧
    JS.extract_dependencies resolveFixture ["./c", "./b"] = ["b.ts", "c.ts"] := by
  have h3 : TS.extract_dependencies resolveFixture ["./c", "./b"] = ["c.ts", "b.ts"] := by
    decide
  refine ⟨by decide, by decide, h3, ?_, by decide, by decide⟩
  intro hsorted
  rw [h3] at hsorted
  have hcb := (List.sorted_cons.mp hsorted).1 "b.ts" (List.mem_singleton.mpr rfl)
  exact absurd hcb (by decide)

/-! ## Claim C2 — breadth-first shortest path

Specification-side notions for the file-level dependency graph: chains of
stored dependency edges, reachability, least chain length, and the
parent-chain depth of a node in the predecessors dictionary.  The claim is
settled by `path_shortest` at the very end: the breadth-first search of
`QueryEngine.path` returns a minimum-edge-count dependency path exactly
when the target is reachable. -/

namespace QueryEngine

/-! ### Dictionary lemmas -/

/-- A present key is among the keys. -/
lemma plookup_mem_keys {preds : List (Nat × Option Nat)} {v : Nat} {o : Option Nat}
    (h : plookup preds v = some o) : v ∈ keysOf preds := by
  unfold plookup at h
  rcases Option.map_eq_some'.mp h with ⟨e, he, rfl⟩
  have hp := List.find?_some he
  have hm := List.mem_of_find?_eq_some he
  simp only [decide_eq_true_eq] at hp
  exact hp ▸ List.mem_map_of_mem Prod.fst hm

/-- A present key stores one of the dictionary's pairs. -/
lemma plookup_mem_pairs {preds : List (Nat × Option Nat)} {v : Nat} {o : Option Nat}
    (h : plookup preds v = some o) : (v, o) ∈ preds := by
  unfold plookup at h
  rcases Option.map_eq_some'.mp h with ⟨e, he, rfl⟩
  have hp := List.find?_some he
  have hm := List.mem_of_find?_eq_some he
  simp only [decide_eq_true_eq] at hp
  cases e with
  | mk a b => cases hp; exact hm

/-- An absent key is not among the keys. -/
lemma plookup_eq_none {preds : List (Nat × Option Nat)} {v : Nat} :
    plookup preds v = none ↔ v ∉ keysOf preds := by
  unfold plookup keysOf
  rw [Option.map_eq_none', List.find?_eq_none]
  constructor
  · intro h hmem
    rcases List.mem_map.mp hmem with ⟨e, he, rfl⟩
    exact absurd (by simp) (fun hh => h e he hh)
  · intro h e he hp
    simp only [decide_eq_true_eq] at hp
    exact h (hp ▸ List.mem_map_of_mem Prod.fst he)

/-- A member key is present. -/
lemma plookup_isSome_of_mem {preds : List (Nat × Option Nat)} {v : Nat}
    (h : v ∈ keysOf preds) : (plookup preds v).isSome := by
  cases hl : plookup preds v with
  | none => exact absurd h (plookup_eq_none.mp hl)
  | some o => rfl

/-- Lookups of present keys are unchanged by appending entries. -/
lemma plookup_append_left {preds ext : List (Nat × Option Nat)} {v : Nat} {o : Option Nat}
    (h : plookup preds v = some o) : plookup (preds ++ ext) v = some o := by
  unfold plookup at h ⊢
  rcases Option.map_eq_some'.mp h with ⟨e, he, rfl⟩
  rw [List.find?_append, he]
  rfl

/-- A freshly appended key looks up to its new value. -/
lemma plookup_append_fresh {preds : List (Nat × Option Nat)} {v : Nat} {pa : Option Nat}
    (h : plookup preds v = none) : plookup (preds ++ [(v, pa)]) v = some pa := by
  unfold plookup at h ⊢
  rw [Option.map_eq_none'] at h
  rw [List.find?_append, h]
  simp

/-- Lookups of other keys are unchanged by appending one entry. -/
lemma plookup_append_other {preds : List (Nat × Option Nat)} {v w : Nat} {pa : Option Nat}
    (hne : v ≠ w) : plookup (preds ++ [(w, pa)]) v = plookup preds v := by
  unfold plookup
  rw [List.find?_append]
  cases hf : preds.find? (fun e => decide (e.1 = v)) with
  | some e => rfl
  | none =>
    have hwv : ¬ w = v := fun h => hne h.symm
    simp [Option.orElse, hwv]

/-! ### pyDict lemmas -/

/-- Unfolding of the overwriting dictionary as a search of the reversed
list. -/
lemma pyDict_go {α κ : Type} [DecidableEq κ] (keyOf : α → κ) (k : κ) :
    ∀ (xs : List α) (acc : Option α),
      xs.foldl (fun acc x => if keyOf x = k then some x else acc) acc =
        match xs.reverse.find? (fun x => decide (keyOf x = k)) with
        | some y => some y
        | none => acc := by
  intro xs
  induction xs with
  | nil => intro acc; rfl
  | cons a l ih =>
    intro acc
    rw [List.foldl_cons, ih, List.reverse_cons, List.find?_append]
    cases hf : l.reverse.find? (fun x => decide (keyOf x = k)) with
    | some y => rfl
    | none =>
      by_cases hk : keyOf a = k <;> simp [Option.orElse, hk]

/-- A found entry of the overwriting dictionary has the key and belongs to
the list. -/
lemma pyDict_eq_some {α κ : Type} [DecidableEq κ] {keyOf : α → κ} {xs : List α}
    {k : κ} {x : α} (h : pyDict keyOf xs k = some x) : keyOf x = k ∧ x ∈ xs := by
  unfold pyDict at h
  rw [pyDict_go] at h
  cases hf : xs.reverse.find? (fun x => decide (keyOf x = k)) with
  | none => rw [hf] at h; exact absurd h (by simp)
  | some y =>
    rw [hf] at h
    cases h
    have hp := List.find?_some hf
    simp only [decide_eq_true_eq] at hp
    exact ⟨hp, List.mem_reverse.mp (List.mem_of_find?_eq_some hf)⟩

/-- A key of a listed element is present in the overwriting dictionary. -/
lemma pyDict_isSome_of_mem {α κ : Type} [DecidableEq κ] {keyOf : α → κ} {xs : List α}
    {x : α} (h : x ∈ xs) : (pyDict keyOf xs (keyOf x)).isSome := by
  unfold pyDict
  rw [pyDict_go]
  cases hf : xs.reverse.find? (fun y => decide (keyOf y = keyOf x)) with
  | some y => rfl
  | none =>
    rw [List.find?_eq_none] at hf
    exact absurd (by simp) (hf x (List.mem_reverse.mpr h))

/-- With pairwise distinct keys, the overwriting dictionary finds each
listed element under its own key. -/
lemma pyDict_self {α κ : Type} [DecidableEq κ] {keyOf : α → κ} {xs : List α} {x : α}
    (h : x ∈ xs) (hnodup : (xs.map keyOf).Nodup) : pyDict keyOf xs (keyOf x) = some x := by
  cases hd : pyDict keyOf xs (keyOf x) with
  | none =>
    have : (pyDict keyOf xs (keyOf x)).isSome := pyDict_isSome_of_mem h
    rw [hd] at this
    exact absurd this (by simp)
  | some y =>
    obtain ⟨hk, hm⟩ := pyDict_eq_some hd
    have := List.inj_on_of_nodup_map hnodup hm h hk
    rw [this]

/-! ### Depth and chain lemmas -/

/-- Parent links are functional, so the depth of a node is unique. -/
lemma pdepth_unique {preds : List (Nat × Option Nat)} {v k1 k2 : Nat}
    (h1 : PDepth preds v k1) (h2 : PDepth preds v k2) : k1 = k2 := by
  induction h1 generalizing k2 with
  | zero hl =>
    cases h2 with
    | zero hl2 => rfl
    | succ hl2 hp2 => rw [hl] at hl2; cases hl2
  | succ hl hp ih =>
    cases h2 with
    | zero hl2 => rw [hl] at hl2; cases hl2
    | succ hl2 hp2 =>
      rw [hl] at hl2
      cases hl2
      rw [ih hp2]

/-- Depth facts survive appending new entries to the dictionary. -/
lemma pdepth_append {preds ext : List (Nat × Option Nat)} {v k : Nat}
    (h : PDepth preds v k) : PDepth (preds ++ ext) v k := by
  induction h with
  | zero hl => exact PDepth.zero (plookup_append_left hl)
  | succ hl hp ih => exact PDepth.succ (plookup_append_left hl) ih

/-- A node with a depth is a key. -/
lemma pdepth_mem_keys {preds : List (Nat × Option Nat)} {v k : Nat}
    (h : PDepth preds v k) : v ∈ keysOf preds := by
  cases h with
  | zero hl => exact plookup_mem_keys hl
  | succ hl hp => exact plookup_mem_keys hl

/-- A chain can be extended by one edge at its end. -/
lemma chain_snoc_mk {r : AnalysisResult} {x u z k : Nat}
    (h : Chain r x u k) (he : z ∈ depsOf r u) : Chain r x z (k + 1) := by
  induction h with
  | refl x => exact Chain.step he (Chain.refl z)
  | step he2 hc ih => exact Chain.step he2 (ih he)

/-- A nonempty chain decomposes at its last edge. -/
lemma chain_snoc {r : AnalysisResult} {x z k : Nat} (h : Chain r x z (k + 1)) :
    ∃ u, Chain r x u k ∧ z ∈ depsOf r u := by
  induction k generalizing x with
  | zero =>
    cases h with
    | step he hc =>
      cases hc
      exact ⟨x, Chain.refl x, he⟩
  | succ k ih =>
    cases h with
    | step he hc =>
      obtain ⟨u, hu, hedge⟩ := ih hc
      exact ⟨u, Chain.step he hu, hedge⟩

/-- A reachable node has a least chain length. -/
lemma mindist_exists {r : AnalysisResult} {x z : Nat} (h : Reachable r x z) :
    ∃ k, IsMinDist r x z k := by
  classical
  exact ⟨Nat.find h, Nat.find_spec h, fun j hj => Nat.find_min' h hj⟩

/-- Least chain lengths are unique. -/
lemma mindist_unique {r : AnalysisResult} {x z k1 k2 : Nat}
    (h1 : IsMinDist r x z k1) (h2 : IsMinDist r x z k2) : k1 = k2 :=
  Nat.le_antisymm (h1.2 k2 h2.1) (h2.2 k1 h1.1)

/-- A node with an outgoing stored edge has a file record. -/
lemma dom_of_mem_deps {r : AnalysisResult} {u y : Nat} (h : y ∈ depsOf r u) :
    (file_by_id r u).isSome := by
  unfold depsOf at h
  cases hc : file_by_id r u with
  | some fi => rfl
  | none => rw [hc] at h; exact absurd h (List.not_mem_nil y)

/-- Every non-final node of a chain has a file record; in particular the
start of a nonempty chain does. -/
lemma dom_of_chain_pos {r : AnalysisResult} {x z k : Nat} (h : Chain r x z (k + 1)) :
    (file_by_id r x).isSome := by
  cases h with
  | step he hc => exact dom_of_mem_deps he

/-- A present file identifier is among the file identifiers of the
analysis result. -/
lemma mem_ids_of_dom {r : AnalysisResult} {v : Nat}
    (h : (file_by_id r v).isSome) : v ∈ r.files.map FileInfo.id := by
  cases hc : file_by_id r v with
  | none => rw [hc] at h; exact absurd h (by simp)
  | some fi =>
    obtain ⟨hk, hm⟩ := pyDict_eq_some hc
    exact hk ▸ List.mem_map_of_mem FileInfo.id hm

/-- A list of pairwise distinct elements drawn from `l2` is no longer than
the deduplication of `l2`. -/
lemma nodup_subset_length_le {l1 l2 : List Nat} (hnodup : l1.Nodup)
    (hsub : ∀ x ∈ l1, x ∈ l2) : l1.length ≤ l2.dedup.length := by
  calc l1.length = l1.toFinset.card := (List.toFinset_card_of_nodup hnodup).symm
    _ ≤ l2.toFinset.card := Finset.card_le_card (fun x hx =>
        List.mem_toFinset.mpr (hsub x (List.mem_toFinset.mp hx)))
    _ = l2.dedup.length := List.card_toFinset l2

/-- The frontier decomposition can always be taken with a nonempty first
level when the queue is nonempty: when all remaining queue nodes sit at
depth `d + 1`, every node of least distance `d + 1` is already discovered
(through its processed depth-`d` predecessor), so the level window shifts
to `d + 1`. -/
lemma levels_shift {r : AnalysisResult} {root target c : Nat}
    {preds : List (Nat × Option Nat)} {rest : List Nat}
    (h : BfsInv r root target preds (c :: rest)) :
    ∃ d q1 q2, c :: rest = q1 ++ q2 ∧ q1 ≠ [] ∧
      (∀ v ∈ q1, PDepth preds v d) ∧ (∀ v ∈ q2, PDepth preds v (d + 1)) ∧
      CompleteBelow r root preds d := by
  obtain ⟨d, q1, q2, hq, h1, h2, hcb⟩ := h.levels
  cases q1 with
  | cons x q1t => exact ⟨d, x :: q1t, q2, hq, by simp, h1, h2, hcb⟩
  | nil =>
    rw [List.nil_append] at hq
    refine ⟨d + 1, q2, [], by simp [hq], by rw [← hq]; simp, h2, by simp, ?_⟩
    intro z k hdz hmin hk
    rcases Nat.lt_or_ge k (d + 1) with hlt | hge
    · exact hcb z k hdz hmin (Nat.lt_succ_iff.mp hlt)
    · have hkeq : k = d + 1 := Nat.le_antisymm hk hge
      subst hkeq
      obtain ⟨u, hcu, hedge⟩ := chain_snoc hmin.1
      have hdu : (file_by_id r u).isSome := dom_of_mem_deps hedge
      obtain ⟨ku, hku⟩ := mindist_exists ⟨d, hcu⟩
      have hkud : ku ≤ d := hku.2 d hcu
      have humem : u ∈ keysOf preds := hcb u ku hdu hku hkud
      have hun : u ∉ c :: rest := by
        intro humemq
        rw [hq] at humemq
        have hdep1 := h2 u humemq
        obtain ⟨ku2, hpd2, hmin2⟩ := h.depth_min u humem
        have he1 : ku2 = ku := mindist_unique hmin2 hku
        have he2 : ku2 = d + 1 := pdepth_unique hpd2 hdep1
        have hkud2 : d ≤ ku := by
          by_contra hlt2
          push_neg at hlt2
          have hch : Chain r root z (ku + 1) := chain_snoc_mk hku.1 hedge
          have := hmin.2 (ku + 1) hch
          omega
        omega
      exact h.closure u humem hun z hedge hdz

/-- Popping the queue head extracts a node of the current depth level and
sets up the scan invariant with nothing yet processed. -/
lemma bfsInv_pop {r : AnalysisResult} {root target c : Nat}
    {preds : List (Nat × Option Nat)} {rest : List Nat}
    (h : BfsInv r root target preds (c :: rest)) :
    ∃ d, ScanInv r root target c d [] (depsOf r c) preds rest := by
  obtain ⟨d, q1, q2, hq, hne, h1, h2, hcb⟩ := levels_shift h
  cases q1 with
  | nil => exact absurd rfl hne
  | cons x q1t =>
    rw [List.cons_append] at hq
    have hx : c = x := (List.cons.injEq c rest x (q1t ++ q2)).mp hq |>.1
    have hrest : rest = q1t ++ q2 := (List.cons.injEq c rest x (q1t ++ q2)).mp hq |>.2
    subst hx
    have hnodup := List.nodup_cons.mp h.queue_nodup
    refine ⟨d,
      { keys_nodup := h.keys_nodup
        keys_dom := h.keys_dom
        root_mem := h.root_mem
        parent_none := h.parent_none
        parent_edge := h.parent_edge
        depth_min := h.depth_min
        queue_sub := fun v hv => h.queue_sub v (List.mem_cons_of_mem c hv)
        queue_nodup := hnodup.2
        target_not := h.target_not
        c_mem := h.queue_sub c (List.mem_cons_self c rest)
        c_depth := h1 c (List.mem_cons_self c q1t)
        c_not_queue := hnodup.1
        hsplit := (List.nil_append (depsOf r c)).symm
        done_closed := fun v hv => absurd hv (List.not_mem_nil v)
        closure_other := ?_
        levels := ⟨q1t, q2, hrest, fun v hv => h1 v (List.mem_cons_of_mem c hv), h2, hcb⟩ }⟩
    intro u hu huq hunec v hv hdv
    have hunotq : u ∉ c :: rest := by
      intro hmem
      rcases List.mem_cons.mp hmem with rfl | hmem2
      · exact hunec rfl
      · exact huq hmem2
    exact h.closure u hu hunotq v hv hdv

/-- Facts established when the scan of node `c` (sitting at depth `d`)
discovers the fresh valid neighbour `d0`: the extended dictionary keeps all
structural invariants, and `d0` receives a parent chain of length `d + 1`,
which is exactly its least distance from the start. -/
lemma fresh_insert {r : AnalysisResult} {root target c d d0 : Nat}
    {done ds : List Nat} {preds : List (Nat × Option Nat)} {queue : List Nat}
    (hinv : ScanInv r root target c d done (d0 :: ds) preds queue)
    (hdom : (file_by_id r d0).isSome)
    (hfresh : plookup preds d0 = none) :
    keysOf (preds ++ [(d0, some c)]) = keysOf preds ++ [d0] ∧
    (keysOf (preds ++ [(d0, some c)])).Nodup ∧
    (∀ v ∈ keysOf (preds ++ [(d0, some c)]), (file_by_id r v).isSome) ∧
    plookup (preds ++ [(d0, some c)]) root = some none ∧
    (∀ v pa, (v, pa) ∈ preds ++ [(d0, some c)] → pa = none → v = root) ∧
    (∀ v p, plookup (preds ++ [(d0, some c)]) v = some (some p) → v ∈ depsOf r p) ∧
    (∀ v ∈ keysOf (preds ++ [(d0, some c)]),
        ∃ k, PDepth (preds ++ [(d0, some c)]) v k ∧ IsMinDist r root v k) ∧
    PDepth (preds ++ [(d0, some c)]) d0 (d + 1) ∧
    IsMinDist r root d0 (d + 1) := by
  have hkeys : keysOf (preds ++ [(d0, some c)]) = keysOf preds ++ [d0] := by
    unfold keysOf
    rw [List.map_append]
    rfl
  have hnotmem : d0 ∉ keysOf preds := plookup_eq_none.mp hfresh
  have hedge : d0 ∈ depsOf r c := by
    rw [hinv.hsplit]
    exact List.mem_append_right done (List.mem_cons_self d0 ds)
  have hcmin : IsMinDist r root c d := by
    obtain ⟨kc, hpdc, hminc⟩ := hinv.depth_min c hinv.c_mem
    have : kc = d := pdepth_unique hpdc hinv.c_depth
    exact this ▸ hminc
  have hd0depth : PDepth (preds ++ [(d0, some c)]) d0 (d + 1) :=
    PDepth.succ (plookup_append_fresh hfresh) (pdepth_append hinv.c_depth)
  have hd0min : IsMinDist r root d0 (d + 1) := by
    refine ⟨chain_snoc_mk hcmin.1 hedge, ?_⟩
    intro j hj
    by_contra hlt
    push_neg at hlt
    obtain ⟨k0, hk0⟩ := mindist_exists ⟨j, hj⟩
    have hk0d : k0 ≤ d := le_trans (hk0.2 j hj) (Nat.lt_succ_iff.mp hlt)
    obtain ⟨q1, q2, hqeq, h1, h2, hcb⟩ := hinv.levels
    exact hnotmem (hcb d0 k0 hdom hk0 hk0d)
  refine ⟨hkeys, ?_, ?_, plookup_append_left hinv.root_mem, ?_, ?_, ?_, hd0depth, hd0min⟩
  · rw [hkeys]
    exact List.nodup_append.mpr ⟨hinv.keys_nodup, List.nodup_singleton d0,
      fun a ha hb => hnotmem ((List.mem_singleton.mp hb) ▸ ha)⟩
  · intro v hv
    rw [hkeys] at hv
    rcases List.mem_append.mp hv with hv | hv
    · exact hinv.keys_dom v hv
    · exact (List.mem_singleton.mp hv) ▸ hdom
  · intro v pa hmem hpa
    rcases List.mem_append.mp hmem with hmem | hmem
    · exact hinv.parent_none v pa hmem hpa
    · rw [List.mem_singleton] at hmem
      cases hmem
      cases hpa
  · intro v p hl
    cases hv : plookup preds v with
    | some o =>
      rw [plookup_append_left hv] at hl
      cases hl
      exact hinv.parent_edge v p hv
    | none =>
      by_cases hvd : v = d0
      · subst hvd
        rw [plookup_append_fresh hv] at hl
        cases hl
        exact hedge
      · rw [plookup_append_other hvd] at hl
        rw [hv] at hl
        cases hl
  · intro v hv
    rw [hkeys] at hv
    rcases List.mem_append.mp hv with hv | hv
    · obtain ⟨k, hk1, hk2⟩ := hinv.depth_min v hv
      exact ⟨k, pdepth_append hk1, hk2⟩
    · rw [List.mem_singleton] at hv
      subst hv
      exact ⟨d + 1, hd0depth, hd0min⟩

/-- A finished scan restores the outer loop invariant: node `c` now counts
as processed, and its dependency list was handled in full. -/
lemma scanInv_terminal {r : AnalysisResult} {root target c d : Nat}
    {done : List Nat} {preds : List (Nat × Option Nat)} {queue : List Nat}
    (h : ScanInv r root target c d done [] preds queue) :
    BfsInv r root target preds queue := by
  have hdeps : depsOf r c = done := by
    have := h.hsplit
    rw [List.append_nil] at this
    exact this
  refine
    { keys_nodup := h.keys_nodup
      keys_dom := h.keys_dom
      root_mem := h.root_mem
      parent_none := h.parent_none
      parent_edge := h.parent_edge
      depth_min := h.depth_min
      queue_sub := h.queue_sub
      queue_nodup := h.queue_nodup
      target_not := h.target_not
      closure := ?_
      levels := ?_ }
  · intro u hu huq v hv hdv
    by_cases huc : u = c
    · subst huc
      rw [hdeps] at hv
      exact h.done_closed v hv hdv
    · exact h.closure_other u hu huq huc v hv hdv
  · obtain ⟨q1, q2, hq, h1, h2, hcb⟩ := h.levels
    exact ⟨d, q1, q2, hq, h1, h2, hcb⟩

/-- Discovery is monotone under dictionary extension. -/
lemma completeBelow_mono {r : AnalysisResult} {root : Nat}
    {preds ext : List (Nat × Option Nat)} {d : Nat}
    (h : CompleteBelow r root preds d) : CompleteBelow r root (preds ++ ext) d := by
  intro z k h1 h2 h3
  have hm := h z k h1 h2 h3
  unfold keysOf at hm ⊢
  rw [List.map_append]
  exact List.mem_append_left _ hm

/-- Skipping a dependency — one without a file record, or one already
discovered — moves it to the processed prefix. -/
lemma scanInv_shift {r : AnalysisResult} {root target c d d0 : Nat}
    {done ds : List Nat} {preds : List (Nat × Option Nat)} {queue : List Nat}
    (hinv : ScanInv r root target c d done (d0 :: ds) preds queue)
    (hd0 : (file_by_id r d0).isSome → d0 ∈ keysOf preds) :
    ScanInv r root target c d (done ++ [d0]) ds preds queue :=
  { hinv with
    hsplit := by rw [hinv.hsplit, List.append_cons]
    done_closed := by
      intro v hv hdv
      rcases List.mem_append.mp hv with hv | hv
      · exact hinv.done_closed v hv hdv
      · exact (List.mem_singleton.mp hv) ▸ hd0 ((List.mem_singleton.mp hv) ▸ hdv) }

/-- Discovering the fresh valid neighbour `d0` (not the target) restores
the scan invariant with `d0` recorded and enqueued. -/
lemma scanInv_insert {r : AnalysisResult} {root target c d d0 : Nat}
    {done ds : List Nat} {preds : List (Nat × Option Nat)} {queue : List Nat}
    (hinv : ScanInv r root target c d done (d0 :: ds) preds queue)
    (hdom : (file_by_id r d0).isSome)
    (hfresh : plookup preds d0 = none)
    (hne : d0 ≠ target) :
    ScanInv r root target c d (done ++ [d0]) ds
      (preds ++ [(d0, some c)]) (queue ++ [d0]) := by
  obtain ⟨hkeys, hnodup, hdomAll, hroot, hpnone, hpedge, hdepth, hd0depth, hd0min⟩ :=
    fresh_insert hinv hdom hfresh
  have hmemkeys : ∀ v ∈ keysOf preds, v ∈ keysOf (preds ++ [(d0, some c)]) := by
    intro v hv
    rw [hkeys]
    exact List.mem_append_left _ hv
  have hd0mem : d0 ∈ keysOf (preds ++ [(d0, some c)]) := by
    rw [hkeys]
    exact List.mem_append_right _ (List.mem_singleton.mpr rfl)
  have hd0notkeys : d0 ∉ keysOf preds := plookup_eq_none.mp hfresh
  refine
    { keys_nodup := hnodup
      keys_dom := hdomAll
      root_mem := hroot
      parent_none := hpnone
      parent_edge := hpedge
      depth_min := hdepth
      queue_sub := ?_
      queue_nodup := ?_
      target_not := ?_
      c_mem := hmemkeys c hinv.c_mem
      c_depth := pdepth_append hinv.c_depth
      c_not_queue := ?_
      hsplit := by rw [hinv.hsplit, List.append_cons]
      done_closed := ?_
      closure_other := ?_
      levels := ?_ }
  · intro v hv
    rcases List.mem_append.mp hv with hv | hv
    · exact hmemkeys v (hinv.queue_sub v hv)
    · exact (List.mem_singleton.mp hv) ▸ hd0mem
  · refine List.nodup_append.mpr ⟨hinv.queue_nodup, List.nodup_singleton d0, ?_⟩
    intro a ha hb
    rw [List.mem_singleton] at hb
    subst hb
    exact hd0notkeys (hinv.queue_sub a ha)
  · rw [plookup_append_other (fun h => hne h.symm)]
    exact hinv.target_not
  · intro hc
    rcases List.mem_append.mp hc with hc | hc
    · exact hinv.c_not_queue hc
    · rw [List.mem_singleton] at hc
      exact hd0notkeys (hc ▸ hinv.c_mem)
  · intro v hv hdv
    rcases List.mem_append.mp hv with hv | hv
    · exact hmemkeys v (hinv.done_closed v hv hdv)
    · exact (List.mem_singleton.mp hv) ▸ hd0mem
  · intro u hu huq hunec v hv hdv
    rw [hkeys] at hu
    rcases List.mem_append.mp hu with hu | hu
    · have huq2 : u ∉ queue := fun h => huq (List.mem_append_left _ h)
      exact hmemkeys v (hinv.closure_other u hu huq2 hunec v hv hdv)
    · rw [List.mem_singleton] at hu
      subst hu
      exact absurd (List.mem_append_right queue (List.mem_singleton.mpr rfl)) huq
  · obtain ⟨q1, q2, hq, h1, h2, hcb⟩ := hinv.levels
    refine ⟨q1, q2 ++ [d0], by rw [hq, List.append_assoc], ?_, ?_, completeBelow_mono hcb⟩
    · intro v hv
      exact pdepth_append (h1 v hv)
    · intro v hv
      rcases List.mem_append.mp hv with hv | hv
      · exact pdepth_append (h2 v hv)
      · exact (List.mem_singleton.mp hv) ▸ hd0depth

/-- Discovering the target as a fresh valid neighbour yields the found
state: its parent chain has length `d + 1`, its least distance. -/
lemma scanInv_found {r : AnalysisResult} {root target c d : Nat}
    {done ds : List Nat} {preds : List (Nat × Option Nat)} {queue : List Nat}
    (hinv : ScanInv r root target c d done (target :: ds) preds queue)
    (hdom : (file_by_id r target).isSome)
    (hfresh : plookup preds target = none) :
    FoundState r root target (preds ++ [(target, some c)]) := by
  obtain ⟨hkeys, hnodup, hdomAll, hroot, hpnone, hpedge, hdepth, htdepth, htmin⟩ :=
    fresh_insert hinv hdom hfresh
  exact
    { keys_nodup := hnodup
      keys_dom := hdomAll
      parent_none := hpnone
      parent_edge := hpedge
      target_depth := ⟨d + 1, htdepth, htmin⟩ }

/-- Correctness of the inner scan: it either finds the target (yielding the
found state) or finishes the dependency list with the scan invariant
restored; the dictionary only grows, and the queue grows by at most as many
entries as the dictionary. -/
lemma bfsScan_spec {r : AnalysisResult} {root target c d : Nat} :
    ∀ (ds done : List Nat) (preds : List (Nat × Option Nat)) (queue : List Nat),
      ScanInv r root target c d done ds preds queue →
      ∃ preds2 queue2 found,
        bfsScan r target c ds preds queue = (preds2, queue2, found) ∧
        (found = true → FoundState r root target preds2) ∧
        (found = false → ScanInv r root target c d (done ++ ds) [] preds2 queue2) ∧
        ∃ ext extq, preds2 = preds ++ ext ∧ queue2 = queue ++ extq ∧
          extq.length ≤ ext.length := by
  intro ds
  induction ds with
  | nil =>
    intro done preds queue hinv
    refine ⟨preds, queue, false, rfl, fun h => absurd h (by simp),
      fun _ => ?_, [], [], by rw [List.append_nil], by rw [List.append_nil], Nat.le_refl 0⟩
    rw [List.append_nil]
    exact hinv
  | cons d0 ds ih =>
    intro done preds queue hinv
    by_cases hdomN : (file_by_id r d0).isNone = true
    · have hstep : bfsScan r target c (d0 :: ds) preds queue =
          bfsScan r target c ds preds queue := by
        simp [bfsScan, hdomN]
      have hinv2 : ScanInv r root target c d (done ++ [d0]) ds preds queue :=
        scanInv_shift hinv (fun hs => by
          rw [Option.isNone_iff_eq_none.mp hdomN] at hs
          exact absurd hs (by simp))
      obtain ⟨p2, q2, f, heq, hft, hff, hext⟩ := ih (done ++ [d0]) preds queue hinv2
      refine ⟨p2, q2, f, hstep ▸ heq, hft, fun hf => ?_, hext⟩
      rw [List.append_cons]
      exact hff hf
    · have hdomS : (file_by_id r d0).isSome = true := by
        cases hfi : file_by_id r d0 with
        | none => rw [hfi] at hdomN; exact absurd rfl hdomN
        | some fi => rfl
      by_cases hpres : (plookup preds d0).isSome = true
      · have hstep : bfsScan r target c (d0 :: ds) preds queue =
            bfsScan r target c ds preds queue := by
          simp [bfsScan, hdomN, hpres]
        have hmem : d0 ∈ keysOf preds := by
          obtain ⟨o, ho⟩ := Option.isSome_iff_exists.mp hpres
          exact plookup_mem_keys ho
        have hinv2 : ScanInv r root target c d (done ++ [d0]) ds preds queue :=
          scanInv_shift hinv (fun _ => hmem)
        obtain ⟨p2, q2, f, heq, hft, hff, hext⟩ := ih (done ++ [d0]) preds queue hinv2
        refine ⟨p2, q2, f, hstep ▸ heq, hft, fun hf => ?_, hext⟩
        rw [List.append_cons]
        exact hff hf
      · have hfresh : plookup preds d0 = none := by
          cases hl : plookup preds d0 with
          | none => rfl
          | some o => rw [hl] at hpres; exact absurd rfl hpres
        by_cases hdt : d0 = target
        · subst hdt
          have hstep : bfsScan r d0 c (d0 :: ds) preds queue =
              (preds ++ [(d0, some c)], queue, true) := by
            simp [bfsScan, hdomN, hpres]
          refine ⟨preds ++ [(d0, some c)], queue, true, hstep,
            fun _ => scanInv_found hinv hdomS hfresh,
            fun hf => absurd hf (by simp),
            [(d0, some c)], [], rfl, by rw [List.append_nil], by simp⟩
        · have hstep : bfsScan r target c (d0 :: ds) preds queue =
              bfsScan r target c ds (preds ++ [(d0, some c)]) (queue ++ [d0]) := by
            simp [bfsScan, hdomN, hpres, hdt]
          have hinv2 := scanInv_insert hinv hdomS hfresh hdt
          obtain ⟨p2, q2, f, heq, hft, hff, ext2, extq2, hp, hq, hle⟩ :=
            ih (done ++ [d0]) (preds ++ [(d0, some c)]) (queue ++ [d0]) hinv2
          refine ⟨p2, q2, f, hstep ▸ heq, hft, fun hf => ?_,
            (d0, some c) :: ext2, d0 :: extq2, ?_, ?_, ?_⟩
          · rw [List.append_cons]
            exact hff hf
          · rw [hp, List.append_assoc]
            rfl
          · rw [hq, List.append_assoc]
            rfl
          · simpa using Nat.succ_le_succ hle

/-- The discovered keys are pairwise distinct file identifiers, so they are
no more numerous than the distinct file identifiers of the result. -/
lemma keys_length_le {r : AnalysisResult} {preds : List (Nat × Option Nat)}
    (hnodup : (keysOf preds).Nodup)
    (hdom : ∀ v ∈ keysOf preds, (file_by_id r v).isSome) :
    (keysOf preds).length ≤ ((r.files.map FileInfo.id).dedup).length :=
  nodup_subset_length_le hnodup (fun x hx => mem_ids_of_dom (hdom x hx))

/-- Correctness of the outer loop: with enough fuel — each iteration pops
one node and the measure `2 (N - discovered) + queue` strictly decreases —
the loop either finds the target or drains the queue with the invariant
intact and the target undiscovered. -/
lemma bfsLoop_spec {r : AnalysisResult} {root target : Nat} :
    ∀ (fuel : Nat) (preds : List (Nat × Option Nat)) (queue : List Nat),
      BfsInv r root target preds queue →
      2 * ((r.files.map FileInfo.id).dedup).length + queue.length ≤
        fuel + 2 * (keysOf preds).length →
      ∃ preds2 found, bfsLoop r target fuel preds queue = (preds2, found) ∧
        (found = true → FoundState r root target preds2) ∧
        (found = false → BfsInv r root target preds2 [] ∧
          plookup preds2 target = none) := by
  intro fuel
  induction fuel with
  | zero =>
    intro preds queue hinv hmeas
    have hkb := keys_length_le hinv.keys_nodup hinv.keys_dom
    have hq0 : queue.length = 0 := by omega
    have hqnil : queue = [] := List.length_eq_zero.mp hq0
    subst hqnil
    exact ⟨preds, false, rfl, fun h => absurd h (by simp),
      fun _ => ⟨hinv, hinv.target_not⟩⟩
  | succ fuel ih =>
    intro preds queue hinv hmeas
    cases queue with
    | nil =>
      exact ⟨preds, false, rfl, fun h => absurd h (by simp),
        fun _ => ⟨hinv, hinv.target_not⟩⟩
    | cons c rest =>
      obtain ⟨d, hscan0⟩ := bfsInv_pop hinv
      obtain ⟨p2, q2, f, heq, hft, hff, ext, extq, hp, hq, hle⟩ :=
        bfsScan_spec (depsOf r c) [] preds rest hscan0
      cases f with
      | true =>
        have hloopstep : bfsLoop r target (fuel + 1) preds (c :: rest) = (p2, true) := by
          simp [bfsLoop, heq]
        exact ⟨p2, true, hloopstep, fun _ => hft rfl, fun h => absurd h (by simp)⟩
      | false =>
        have hloopstep : bfsLoop r target (fuel + 1) preds (c :: rest) =
            bfsLoop r target fuel p2 q2 := by
          simp [bfsLoop, heq]
        have hinv2 : BfsInv r root target p2 q2 := scanInv_terminal (hff rfl)
        have hklen : (keysOf p2).length = (keysOf preds).length + ext.length := by
          simp [hp, keysOf]
        have hqlen : q2.length = rest.length + extq.length := by
          rw [hq, List.length_append]
        have hmeas2 : 2 * ((r.files.map FileInfo.id).dedup).length + q2.length ≤
            fuel + 2 * (keysOf p2).length := by
          simp only [List.length_cons] at hmeas
          omega
        obtain ⟨p3, found3, heq3, h3t, h3f⟩ := ih p2 q2 hinv2 hmeas2
        exact ⟨p3, found3, by rw [hloopstep, heq3], h3t, h3f⟩

/-- The nodes of a parent chain are pairwise distinct (their depths strictly
decrease), all discovered, and of depth at most the chain length. -/
lemma pdepth_card {preds : List (Nat × Option Nat)} :
    ∀ (k v : Nat), PDepth preds v k →
      ∃ l : List Nat, l.length = k + 1 ∧ l.Nodup ∧ (∀ x ∈ l, x ∈ keysOf preds) ∧
        (∀ x ∈ l, ∃ j, j ≤ k ∧ PDepth preds x j) := by
  intro k
  induction k with
  | zero =>
    intro v hd
    refine ⟨[v], rfl, List.nodup_singleton v, ?_, ?_⟩
    · intro x hx
      rw [List.mem_singleton] at hx
      subst hx
      exact pdepth_mem_keys hd
    · intro x hx
      rw [List.mem_singleton] at hx
      subst hx
      exact ⟨0, Nat.le_refl 0, hd⟩
  | succ k ih =>
    intro v hd
    cases hd with
    | @succ _ p _ hl hp =>
      obtain ⟨l, hlen, hnd, hsub, hdep⟩ := ih p hp
      refine ⟨v :: l, by rw [List.length_cons, hlen], ?_, ?_, ?_⟩
      · rw [List.nodup_cons]
        refine ⟨?_, hnd⟩
        intro hvmem
        obtain ⟨j, hj, hpj⟩ := hdep v hvmem
        have := pdepth_unique (PDepth.succ hl hp) hpj
        omega
      · intro x hx
        rcases List.mem_cons.mp hx with rfl | hx
        · exact plookup_mem_keys hl
        · exact hsub x hx
      · intro x hx
        rcases List.mem_cons.mp hx with rfl | hx
        · exact ⟨k + 1, Nat.le_refl _, PDepth.succ hl hp⟩
        · obtain ⟨j, hj, hpj⟩ := hdep x hx
          exact ⟨j, Nat.le_succ_of_le hj, hpj⟩

/-- A parent-chain depth is below the dictionary size. -/
lemma pdepth_le_len {preds : List (Nat × Option Nat)} {v k : Nat}
    (hnodup : (keysOf preds).Nodup) (h : PDepth preds v k) : k < preds.length := by
  obtain ⟨l, hlen, hnd, hsub, _⟩ := pdepth_card k v h
  have h1 : l.length ≤ ((keysOf preds).dedup).length :=
    nodup_subset_length_le hnd hsub
  have h2 : (keysOf preds).dedup = keysOf preds := List.dedup_eq_self.mpr hnodup
  rw [h2] at h1
  have h3 : (keysOf preds).length = preds.length := List.length_map preds Prod.fst
  omega

/-- A chain list extends by one edge at its end. -/
lemma isChainList_append_singleton {r : AnalysisResult} {u v : Nat} :
    ∀ {l : List Nat}, IsChainList r l → l.getLast? = some u → v ∈ depsOf r u →
      IsChainList r (l ++ [v]) := by
  intro l
  induction l with
  | nil =>
    intro _ hlast _
    cases hlast
  | cons x rest ih =>
    intro hch hlast hedge
    cases rest with
    | nil =>
      rw [List.getLast?_singleton] at hlast
      cases hlast
      exact ⟨hedge, trivial⟩
    | cons y rest2 =>
      have hlast2 : (y :: rest2).getLast? = some u := by
        rw [← hlast]
        exact List.getLast?_cons_cons.symm
      exact ⟨hch.1, ih hch.2 hlast2 hedge⟩

/-- Correctness of the path reconstruction: from a node of depth `k` the
predecessor walk yields, with enough fuel, a list of `k + 1` identifiers
from that node back to the start whose reverse is a dependency chain. -/
lemma walkBack_spec {r : AnalysisResult} {root : Nat} {preds : List (Nat × Option Nat)}
    (hnone : ∀ v pa, (v, pa) ∈ preds → pa = none → v = root)
    (hedge : ∀ v p, plookup preds v = some (some p) → v ∈ depsOf r p) :
    ∀ (k v : Nat), PDepth preds v k → ∀ fuel, k ≤ fuel →
      (walkBack preds fuel v).length = k + 1 ∧
      (walkBack preds fuel v).head? = some v ∧
      (walkBack preds fuel v).getLast? = some root ∧
      IsChainList r (walkBack preds fuel v).reverse := by
  intro k
  induction k with
  | zero =>
    intro v hd fuel _
    cases hd with
    | zero hl =>
      have hv : v = root := hnone v none (plookup_mem_pairs hl) rfl
      have hwb : walkBack preds fuel v = [v] := by
        cases fuel with
        | zero => rfl
        | succ fuel => simp [walkBack, hl]
      rw [hwb]
      exact ⟨rfl, rfl, by rw [List.getLast?_singleton, hv], trivial⟩
  | succ k ih =>
    intro v hd fuel hfuel
    cases hd with
    | @succ _ p _ hl hp =>
      cases fuel with
      | zero => omega
      | succ fuel =>
        have hstep : walkBack preds (fuel + 1) v = v :: walkBack preds fuel p := by
          simp [walkBack, hl]
        obtain ⟨hlen, hhead, hlast, hchain⟩ := ih p hp fuel (Nat.succ_le_succ_iff.mp hfuel)
        have htail : ∃ t ts, walkBack preds fuel p = t :: ts := by
          cases hwt : walkBack preds fuel p with
          | nil => rw [hwt] at hlen; exact absurd hlen (by simp)
          | cons t ts => exact ⟨t, ts, rfl⟩
        obtain ⟨t, ts, hts⟩ := htail
        refine ⟨?_, ?_, ?_, ?_⟩
        · rw [hstep, List.length_cons, hlen]
        · rw [hstep]
          rfl
        · rw [hstep, hts, List.getLast?_cons_cons, ← hts, hlast]
        · rw [hstep, List.reverse_cons]
          have hpv : v ∈ depsOf r p := hedge v p hl
          have hlastrev : (walkBack preds fuel p).reverse.getLast? = some p := by
            rw [List.getLast?_reverse, hhead]
          exact isChainList_append_singleton hchain hlastrev hpv

/-- When the loop drains the queue without discovering the target, the
target is unreachable: the discovered set is closed under valid stored
edges and contains the start. -/
lemma unreachable_of_terminal {r : AnalysisResult} {root target : Nat}
    {preds : List (Nat × Option Nat)}
    (hinv : BfsInv r root target preds [])
    (hdt : (file_by_id r target).isSome)
    (htn : plookup preds target = none) :
    ¬ Reachable r root target := by
  rintro ⟨k, hchain⟩
  have main : ∀ (k x : Nat), x ∈ keysOf preds → Chain r x target k →
      target ∈ keysOf preds := by
    intro k
    induction k with
    | zero =>
      intro x hx hc
      cases hc
      exact hx
    | succ k ih =>
      intro x hx hc
      cases hc with
      | @step _ y _ _ he hc2 =>
        have hdy : (file_by_id r y).isSome := by
          cases k with
          | zero => cases hc2; exact hdt
          | succ k2 => exact dom_of_chain_pos hc2
        have hy : y ∈ keysOf preds := hinv.closure x hx (List.not_mem_nil x) y he hdy
        exact ih y hy hc2
  exact (plookup_eq_none.mp htn)
    (main k root (plookup_mem_keys hinv.root_mem) hchain)

/-- The initial state of the search satisfies the loop invariant. -/
lemma bfsInv_init {r : AnalysisResult} {a b : String} {fa fb : FileInfo}
    (hids : (r.files.map FileInfo.id).Nodup)
    (hfa : file_by_path r a = some fa) (hfb : file_by_path r b = some fb)
    (hab : a ≠ b) :
    BfsInv r fa.id fb.id [(fa.id, none)] [fa.id] ∧ (file_by_id r fb.id).isSome ∧
      fa.path = a ∧ fb.path = b := by
  obtain ⟨hpa, hma⟩ := pyDict_eq_some hfa
  obtain ⟨hpb, hmb⟩ := pyDict_eq_some hfb
  have hfanb : fa ≠ fb := fun h => hab (by rw [← hpa, ← hpb, h])
  have hidne : fa.id ≠ fb.id := fun h => hfanb (List.inj_on_of_nodup_map hids hma hmb h)
  have hdoma : (file_by_id r fa.id).isSome := pyDict_isSome_of_mem hma
  have hdomb : (file_by_id r fb.id).isSome := pyDict_isSome_of_mem hmb
  have hlookroot : plookup [(fa.id, none)] fa.id = some none := by
    simp [plookup]
  refine ⟨?_, hdomb, hpa, hpb⟩
  refine
    { keys_nodup := List.nodup_singleton fa.id
      keys_dom := ?_
      root_mem := hlookroot
      parent_none := ?_
      parent_edge := ?_
      depth_min := ?_
      queue_sub := ?_
      queue_nodup := List.nodup_singleton fa.id
      target_not := ?_
      closure := ?_
      levels := ?_ }
  · intro v hv
    have : v = fa.id := by simpa [keysOf] using hv
    subst this
    exact hdoma
  · intro v pa hmem _
    have : v = fa.id ∧ pa = none := by simpa using hmem
    exact this.1
  · intro v p hl
    by_cases hv : v = fa.id
    · subst hv
      rw [hlookroot] at hl
      cases hl
    · have hvne : ¬ fa.id = v := fun h => hv h.symm
      simp [plookup, hvne] at hl
  · intro v hv
    have : v = fa.id := by simpa [keysOf] using hv
    subst this
    refine ⟨0, PDepth.zero hlookroot, Chain.refl fa.id, fun j _ => Nat.zero_le j⟩
  · intro v hv
    have : v = fa.id := by simpa using hv
    subst this
    simp [keysOf]
  · have hvne : ¬ fa.id = fb.id := hidne
    simp [plookup, hvne]
  · intro u hu huq
    have : u = fa.id := by simpa [keysOf] using hu
    subst this
    exact absurd (List.mem_singleton.mpr rfl) huq
  · refine ⟨0, [fa.id], [], rfl, ?_, by simp, ?_⟩
    · intro v hv
      have : v = fa.id := by simpa using hv
      subst this
      exact PDepth.zero hlookroot
    · intro z j _ hmin hj
      have hj0 : j = 0 := Nat.le_zero.mp hj
      subst hj0
      cases hmin.1
      simp [keysOf]

end QueryEngine


/-- C2: for every analysis result with distinct file identifiers, `path`
with equal endpoints returns the one-element path even for unknown files;
with distinct endpoints and either unknown it returns not-found with an
empty path; with both known it returns, exactly when the target is
reachable over the stored dependency edges, a dependency chain from the
start file to the target of minimum edge count (rendered as file paths),
and not-found with an empty path when unreachable.  Concretely, for files
`a` → `b` → `c`: `path a c` finds `[a, b, c]`, `path c a` finds nothing,
and `path` on equal unknown endpoints returns the one-element path. -/
theorem path_shortest :
    (∀ (r : AnalysisResult), (r.files.map FileInfo.id).Nodup →
      ∀ (a b : String),
        (a = b → QueryEngine.path r a b = ⟨a, b, [a], true⟩) ∧
        (a ≠ b →
          (QueryEngine.file_by_path r a = none ∨ QueryEngine.file_by_path r b = none) →
          QueryEngine.path r a b = ⟨a, b, [], false⟩) ∧
        (∀ fa fb, a ≠ b → QueryEngine.file_by_path r a = some fa →
          QueryEngine.file_by_path r b = some fb →
          (QueryEngine.Reachable r fa.id fb.id →
            ∃ (l : List Nat) (k : Nat),
              QueryEngine.path r a b = ⟨a, b, l.map (QueryEngine.pathOfId r), true⟩ ∧
              QueryEngine.IsMinDist r fa.id fb.id k ∧ l.length = k + 1 ∧
              l.head? = some fa.id ∧ l.getLast? = some fb.id ∧
              QueryEngine.IsChainList r l) ∧
          (¬ QueryEngine.Reachable r fa.id fb.id →
            QueryEngine.path r a b = ⟨a, b, [], false⟩)))
  ∧ QueryEngine.path chainResult "a" "c" = ⟨"a", "c", ["a", "b", "c"], true⟩
  ∧ QueryEngine.path chainResult "c" "a" = ⟨"c", "a", [], false⟩
  ∧ QueryEngine.path chainResult "zz" "zz" = ⟨"zz", "zz", ["zz"], true⟩ := by
  refine ⟨?_, by decide, by decide, by decide⟩
  intro r hids a b
  refine ⟨?_, ?_, ?_⟩
  · intro hab
    subst hab
    simp [QueryEngine.path]
  · intro hab hnone
    cases hA : QueryEngine.file_by_path r a <;>
      cases hB : QueryEngine.file_by_path r b <;>
      simp_all [QueryEngine.path, hab]
  · intro fa fb hab hfa hfb
    obtain ⟨hinv0, hdomb, hpa, hpb⟩ := QueryEngine.bfsInv_init hids hfa hfb hab
    have hmeas : 2 * ((r.files.map FileInfo.id).dedup).length +
        ([fa.id] : List Nat).length ≤
        (2 * r.files.length + 1) + 2 * (QueryEngine.keysOf [(fa.id, none)]).length := by
      have h1 : ((r.files.map FileInfo.id).dedup).length ≤
          (r.files.map FileInfo.id).length :=
        (List.dedup_sublist (r.files.map FileInfo.id)).length_le
      have h2 : (r.files.map FileInfo.id).length = r.files.length :=
        List.length_map r.files FileInfo.id
      simp only [QueryEngine.keysOf, List.map_cons, List.map_nil, List.length_cons,
        List.length_nil] at h1 h2 ⊢
      omega
    obtain ⟨p2, found, heq, hfoundT, hfoundF⟩ :=
      QueryEngine.bfsLoop_spec (2 * r.files.length + 1) [(fa.id, none)] [fa.id] hinv0 hmeas
    constructor
    · intro hreach
      cases found with
      | false =>
        obtain ⟨hterm, htn⟩ := hfoundF rfl
        exact absurd hreach (QueryEngine.unreachable_of_terminal hterm hdomb htn)
      | true =>
        have hfs := hfoundT rfl
        obtain ⟨k, hk, hmin⟩ := hfs.target_depth
        have hkfuel : k ≤ p2.length :=
          Nat.le_of_lt (QueryEngine.pdepth_le_len hfs.keys_nodup hk)
        obtain ⟨hlen, hhead, hlast, hchain⟩ :=
          QueryEngine.walkBack_spec hfs.parent_none hfs.parent_edge k fb.id hk
            p2.length hkfuel
        refine ⟨(QueryEngine.walkBack p2 p2.length fb.id).reverse, k, ?_, hmin,
          by simp [hlen], ?_, ?_, hchain⟩
        · simp [QueryEngine.path, hab, hfa, hfb, heq]
        · rw [List.head?_reverse]
          exact hlast
        · rw [List.getLast?_reverse]
          exact hhead
    · intro hunreach
      cases found with
      | true =>
        have hfs := hfoundT rfl
        obtain ⟨k, _, hmin⟩ := hfs.target_depth
        exact absurd ⟨k, hmin.1⟩ hunreach
      | false =>
        simp [QueryEngine.path, hab, hfa, hfb, heq]

/-- Witness for C2: the general theorem applied to the three-file fixture
at equal unknown endpoints, with the distinct-identifier hypothesis
discharged by evaluation. -/
theorem path_shortest_witness :
    QueryEngine.path chainResult "zz" "zz" = ⟨"zz", "zz", ["zz"], true⟩ :=
  (path_shortest.1 chainResult (by decide) "zz" "zz").1 rfl

end IntentGraph
